import Mathlib

set_option maxRecDepth 4000

/-
Verification development for the breakpoint-triggered capture orchestrator of
the `_vsc_json` editor extension (`src/extension.ts`).  Source strings are
modelled as `List Char`; the JavaScript string primitives the extension uses
(`trim`, `trimStart`, `trimEnd`, `startsWith`, `endsWith`, `indexOf`,
`lastIndexOf`, `split(/\s+/)`, `replace(..., g)`, `padStart`) are modelled as
executable Lean functions below, and each extension function is translated
directly from the TypeScript source.
-/

/-- The apostrophe character, used as a quote character by the unwrapping pass. -/
def aposChar : Char := Char.ofNat 39

/-- Whitespace as matched by the JavaScript `\s` class and `trim` family, for
the characters that can occur in the strings the extension manipulates. -/
def isWsChar (c : Char) : Bool :=
  c = ' ' || c = '\t' || c = '\n' || c = '\r' || c = '\x0b' || c = '\x0c'

/-- Model of JavaScript `String.prototype.trimStart`. -/
def trimStart (s : List Char) : List Char := s.dropWhile isWsChar

/-- Model of JavaScript `String.prototype.trimEnd`. -/
def trimEnd (s : List Char) : List Char := (s.reverse.dropWhile isWsChar).reverse

/-- Model of JavaScript `String.prototype.trim`. -/
def trim (s : List Char) : List Char := trimEnd (trimStart s)

/-- JavaScript `s.startsWith(c)` for a single character `c`. -/
def headIs (c : Char) : List Char → Bool
  | [] => false
  | d :: _ => d = c

/-- JavaScript `s.endsWith(c)` for a single character `c`. -/
def lastIs (c : Char) (s : List Char) : Bool := headIs c s.reverse

/-- One global `String.prototype.replace` pass for a two-character pattern
`[a, b]`, replacing each non-overlapping left-to-right occurrence by `repl`.
All the escape patterns used by the extension (`\\"`, `\\'`, `\\\\`) have
exactly two characters. -/
def replace2 (a b : Char) (repl : List Char) : List Char → List Char
  | [] => []
  | [c] => [c]
  | c :: d :: rest =>
    if c = a ∧ d = b then repl ++ replace2 a b repl rest
    else c :: replace2 a b repl (d :: rest)

/-- Model of the evaluate-result unwrapping pass of the `to-debug-dump-cs`
command (src/extension.ts lines 1222-1237): if the whole string starts and
ends with `"` (or with `'`), the outer quotes are removed by
`substring(1, length - 1)`, escaped quotes of the matching kind are unescaped,
and finally escaped backslashes are unescaped.  Otherwise the string is
returned unchanged. -/
def unwrapResult (replOutput : List Char) : List Char :=
  if (headIs '"' replOutput && lastIs '"' replOutput)
      || (headIs aposChar replOutput && lastIs aposChar replOutput) then
    let quoteChar := replOutput.headD ' '
    let inner := (replOutput.drop 1).take (replOutput.length - 2)
    let unescaped :=
      if quoteChar = '"' then replace2 '\\' '"' ['"'] inner
      else replace2 '\\' aposChar [aposChar] inner
    replace2 '\\' '\\' ['\\'] unescaped
  else replOutput

/-- The fixed magic condition marker `MAGIC_BREAKPOINT_CONDITION` (line 131). -/
def MAGIC_BREAKPOINT_CONDITION : List Char := "99==99".data

/-- JavaScript `condition.replace(/\s+/g, '')`: remove every whitespace character. -/
def removeAllWs (s : List Char) : List Char := s.filter (fun c => !(isWsChar c))

/-- Model of `isMagicBreakpointCondition` (lines 224-230).  A missing or empty
condition is falsy in JavaScript and is rejected up front; otherwise the
condition with all whitespace removed must equal the magic marker. -/
def isMagicBreakpointCondition : Option (List Char) → Bool
  | none => false
  | some c => if c = [] then false else removeAllWs c == MAGIC_BREAKPOINT_CONDITION

/-- A configured breakpoint as seen through the `vscode.debug.breakpoints`
query.  `isSource` models the `instanceof vscode.SourceBreakpoint` test,
`uriScheme` the `location.uri.scheme` of a source breakpoint, `line` the
zero-based `location.range.start.line`. -/
structure Breakpoint where
  isSource : Bool
  uriScheme : List Char
  fsPath : List Char
  line : Nat
  condition : Option (List Char)
  enabled : Bool
deriving DecidableEq

/-- Model of `isAutoDumpAuthorizedForLocation` (lines 232-269).  The function
is parametrised by `normalizePath`, the model of `normalizePathForComparison`
(Node's `path.normalize` plus platform-dependent case folding, both external
library behaviour), and by the currently configured breakpoint list.  The
`for`/`continue` loop returning `true` on the first fully matching breakpoint
is translated to `List.any` over the conjunction of the non-skipping
conditions. -/
def isAutoDumpAuthorizedForLocation (normalizePath : List Char → List Char)
    (breakpoints : List Breakpoint) (framePath : List Char) (zeroBasedLine : Nat) : Bool :=
  let normalizedFramePath := normalizePath framePath
  breakpoints.any fun bp =>
    bp.isSource
      && bp.uriScheme == "file".data
      && normalizePath bp.fsPath == normalizedFramePath
      && bp.line == zeroBasedLine
      && isMagicBreakpointCondition bp.condition
      && bp.enabled

/-- `isMagicBreakpointCondition` on a present condition is exactly the
whitespace-stripped comparison with the magic marker. -/
theorem isMagic_some_iff (c : List Char) :
    isMagicBreakpointCondition (some c) = true ↔ removeAllWs c = MAGIC_BREAKPOINT_CONDITION := by
  by_cases hc : c = []
  · subst hc
    simp [isMagicBreakpointCondition, removeAllWs, MAGIC_BREAKPOINT_CONDITION]
  · simp [isMagicBreakpointCondition, hc]

/-- C4: a halted location is authorized for automatic capture if and only if
some configured breakpoint is a source breakpoint on a `file` URI whose
normalized path equals the halted frame's normalized path, whose zero-based
line equals the halted frame's zero-based line, whose condition string with
all whitespace removed equals the magic marker `99==99`, and which is enabled.
In particular the filter returns `false` whenever every breakpoint matching
the file and line has a condition whose whitespace-stripped form differs from
the marker. -/
theorem autoDumpAuthorized_iff (normalizePath : List Char → List Char)
    (breakpoints : List Breakpoint) (framePath : List Char) (zeroBasedLine : Nat) :
    isAutoDumpAuthorizedForLocation normalizePath breakpoints framePath zeroBasedLine = true ↔
      ∃ bp ∈ breakpoints,
        bp.isSource = true ∧
        bp.uriScheme = "file".data ∧
        normalizePath bp.fsPath = normalizePath framePath ∧
        bp.line = zeroBasedLine ∧
        (∃ c, bp.condition = some c ∧ removeAllWs c = MAGIC_BREAKPOINT_CONDITION) ∧
        bp.enabled = true := by
  unfold isAutoDumpAuthorizedForLocation
  rw [List.any_eq_true]
  constructor
  · rintro ⟨bp, hmem, hcond⟩
    simp only [Bool.and_eq_true, beq_iff_eq] at hcond
    obtain ⟨⟨⟨⟨⟨h1, h2⟩, h3⟩, h4⟩, h5⟩, h6⟩ := hcond
    refine ⟨bp, hmem, h1, h2, h3, h4, ?_, h6⟩
    cases hbc : bp.condition with
    | none => rw [hbc] at h5; simp [isMagicBreakpointCondition] at h5
    | some c => exact ⟨c, rfl, (isMagic_some_iff c).mp (hbc ▸ h5)⟩
  · rintro ⟨bp, hmem, h1, h2, h3, h4, ⟨c, hc, hmagic⟩, h6⟩
    refine ⟨bp, hmem, ?_⟩
    simp only [Bool.and_eq_true, beq_iff_eq]
    exact ⟨⟨⟨⟨⟨h1, h2⟩, h3⟩, h4⟩, hc ▸ (isMagic_some_iff c).mpr hmagic⟩, h6⟩

/-- C7: the unwrapping pass is the identity on every string that is not
wrapped in a layer of matching quote characters: it neither starts and ends
with `"` nor starts and ends with `'`. -/
theorem unwrap_id_on_unwrapped (s : List Char)
    (hdq : ¬ (headIs '"' s = true ∧ lastIs '"' s = true))
    (hsq : ¬ (headIs aposChar s = true ∧ lastIs aposChar s = true)) :
    unwrapResult s = s := by
  unfold unwrapResult
  have hcond : ((headIs '"' s && lastIs '"' s)
      || (headIs aposChar s && lastIs aposChar s)) = false := by
    rw [Bool.or_eq_false_iff, Bool.and_eq_false_iff, Bool.and_eq_false_iff]
    constructor
    · by_cases h1 : headIs '"' s = true
      · right
        by_cases h2 : lastIs '"' s = true
        · exact absurd ⟨h1, h2⟩ hdq
        · simp [Bool.eq_false_iff, h2]
      · left; simp [Bool.eq_false_iff, h1]
    · by_cases h1 : headIs aposChar s = true
      · right
        by_cases h2 : lastIs aposChar s = true
        · exact absurd ⟨h1, h2⟩ hsq
        · simp [Bool.eq_false_iff, h2]
      · left; simp [Bool.eq_false_iff, h1]
  rw [hcond]
  simp

/-- Concrete witness for C7: `{"a": 1}` (a string with no surrounding quote
layer) passes through the unwrapping pass unchanged. -/
theorem unwrap_id_on_unwrapped_witness :
    unwrapResult "\x7b\"a\": 1\x7d".data = "\x7b\"a\": 1\x7d".data :=
  unwrap_id_on_unwrapped _ (by decide) (by decide)

/-- The `PendingAutoDumpRequest` record (src/extension.ts lines 15-24), the
single-slot pending capture request.  Positions are `(line, character)`
pairs; `sessionId` is optional as in the source. -/
structure PendingAutoDumpRequest where
  documentUri : List Char
  filePath : List Char
  selectionStart : Nat × Nat
  selectionEnd : Nat × Nat
  selectionText : List Char
  sessionId : Option Nat
  createdAt : Nat
  requiresStepOverBeforeDump : Bool
deriving DecidableEq

/-- The `CoreClrStopInfo` record (lines 5-13). -/
structure CoreClrStopInfo where
  sessionId : Nat
  threadId : Nat
  reason : Option (List Char)
  frameId : Option Nat
  sourcePath : Option (List Char)
  line : Option Nat
  column : Option Nat
deriving DecidableEq

/-- The expression kind of a resolved selection context
(`'return' | 'assignment' | 'other'`). -/
inductive ExpressionType
  | returnExpr
  | assignmentExpr
  | otherExpr
deriving DecidableEq

/-- The `AutoDumpSelectionContext` record (lines 26-36), with the range kept
as `(line, character)` start/end positions. -/
structure AutoDumpSelectionContext where
  rangeStart : Nat × Nat
  rangeEnd : Nat × Nat
  startLine : Nat
  endLine : Nat
  selectionText : List Char
  filePath : List Char
  fromPendingRequest : Bool
  requiresStepOverBeforeDump : Bool
  expressionType : ExpressionType
deriving DecidableEq

/-- The module-level mutable orchestrator state (lines 134-138). -/
structure OrchestratorState where
  lastStoppedThreadId : Option Nat
  lastCoreClrStopInfo : Option CoreClrStopInfo
  autoDumpInProgress : Bool
  autoDumpArmed : Bool
  pendingAutoDumpRequest : Option PendingAutoDumpRequest
deriving DecidableEq

/-- The record built by `persistPendingRequestFromContext` (lines 300-322)
from a selection context: `documentUri` is the editor document's URI, `now`
the `Date.now()` timestamp. -/
def buildPendingRequest (documentUri : List Char) (context : AutoDumpSelectionContext)
    (sessionId : Option Nat) (requiresStepOverBeforeDump : Bool) (now : Nat) :
    PendingAutoDumpRequest :=
  { documentUri := documentUri
    filePath := context.filePath
    selectionStart := context.rangeStart
    selectionEnd := context.rangeEnd
    selectionText := context.selectionText
    sessionId := sessionId
    createdAt := now
    requiresStepOverBeforeDump := requiresStepOverBeforeDump }

/-- `persistPendingRequestFromContext` as a state transformer: it overwrites
the single `pendingAutoDumpRequest` slot with the freshly built record. -/
def persistPendingRequestFromContext (st : OrchestratorState) (documentUri : List Char)
    (context : AutoDumpSelectionContext) (sessionId : Option Nat)
    (requiresStepOverBeforeDump : Bool) (now : Nat) : OrchestratorState :=
  { st with
    pendingAutoDumpRequest := some
      (buildPendingRequest documentUri context sessionId requiresStepOverBeforeDump now) }

/-- Clearing the pending slot (`pendingAutoDumpRequest = undefined`). -/
def clearPendingRequest (st : OrchestratorState) : OrchestratorState :=
  { st with pendingAutoDumpRequest := none }

/-- An operation on the single pending-request slot: an arm/persist (with all
the data `persistPendingRequestFromContext` consumes) or a clear. -/
inductive PendingSlotOp
  | persist (documentUri : List Char) (context : AutoDumpSelectionContext)
      (sessionId : Option Nat) (requiresStepOverBeforeDump : Bool) (now : Nat)
  | clear

/-- Apply one slot operation to the orchestrator state. -/
def applyPendingSlotOp (st : OrchestratorState) : PendingSlotOp → OrchestratorState
  | .persist u c s r n => persistPendingRequestFromContext st u c s r n
  | .clear => clearPendingRequest st

/-- Run a sequence of slot operations left to right. -/
def runPendingSlotOps (st : OrchestratorState) (ops : List PendingSlotOp) : OrchestratorState :=
  ops.foldl applyPendingSlotOp st

/-- C5: the pending-request store is a single last-write-wins slot.  After any
sequence of persist/clear operations ending in a persist, the slot holds
exactly the record built by that last persist, regardless of the initial state
and of everything persisted before; in particular arming twice in succession
leaves only the second request active. -/
theorem pending_slot_last_write_wins (st : OrchestratorState) (ops : List PendingSlotOp)
    (u : List Char) (c : AutoDumpSelectionContext) (s : Option Nat) (r : Bool) (n : Nat) :
    (runPendingSlotOps st (ops ++ [PendingSlotOp.persist u c s r n])).pendingAutoDumpRequest
      = some (buildPendingRequest u c s r n) ∧
    ∀ (u₁ : List Char) (c₁ : AutoDumpSelectionContext) (s₁ : Option Nat) (r₁ : Bool) (n₁ : Nat),
      (runPendingSlotOps st (ops ++ [PendingSlotOp.persist u₁ c₁ s₁ r₁ n₁,
          PendingSlotOp.persist u c s r n])).pendingAutoDumpRequest
        = some (buildPendingRequest u c s r n) := by
  constructor
  · simp [runPendingSlotOps, List.foldl_append, applyPendingSlotOp,
      persistPendingRequestFromContext]
  · intro u₁ c₁ s₁ r₁ n₁
    simp [runPendingSlotOps, List.foldl_append, applyPendingSlotOp,
      persistPendingRequestFromContext]

/-- The `onDidTerminateDebugSession` handler (lines 866-870): it disarms the
auto dump and clears the pending slot, and touches nothing else. -/
def onDidTerminateDebugSession (st : OrchestratorState) : OrchestratorState :=
  { st with autoDumpArmed := false, pendingAutoDumpRequest := none }

/-- A concrete stop-info record used by the C6 counterexample. -/
def stopInfoC6 : CoreClrStopInfo :=
  { sessionId := 1, threadId := 2, reason := some "breakpoint".data,
    frameId := some 1001, sourcePath := some "/tmp/Program.cs".data,
    line := some 12, column := some 9 }

/-- A concrete orchestrator state with stale stop information, used by the C6
counterexample. -/
def stateC6 : OrchestratorState :=
  { lastStoppedThreadId := some 2
    lastCoreClrStopInfo := some stopInfoC6
    autoDumpInProgress := false
    autoDumpArmed := true
    pendingAutoDumpRequest :=
      some { documentUri := "file:///tmp/Program.cs".data
             filePath := "/tmp/Program.cs".data
             selectionStart := (12, 4)
             selectionEnd := (12, 5)
             selectionText := "x".data
             sessionId := some 1
             createdAt := 0
             requiresStepOverBeforeDump := true } }

/-- Counterexample to C6 as stated: running the termination handler on a state
whose `StopInfo` record is populated leaves that record in place — the handler
clears only the pending request and the armed flag, so stale stop information
does remain after it runs. -/
theorem terminate_keeps_stop_info_counterexample :
    (onDidTerminateDebugSession stateC6).lastCoreClrStopInfo = some stopInfoC6 ∧
    (onDidTerminateDebugSession stateC6).lastCoreClrStopInfo ≠ none ∧
    (onDidTerminateDebugSession stateC6).pendingAutoDumpRequest = none := by
  refine ⟨rfl, ?_, rfl⟩
  simp [onDidTerminateDebugSession, stateC6]

/-- C6 (amended): when a debug session terminates the handler disables
automatic firing and clears the pending-request slot, while the `StopInfo`
record and the last stopped thread id are left unchanged (they are not cleared
by the handler). -/
theorem terminate_clears_pending_only (st : OrchestratorState) :
    (onDidTerminateDebugSession st).autoDumpArmed = false ∧
    (onDidTerminateDebugSession st).pendingAutoDumpRequest = none ∧
    (onDidTerminateDebugSession st).lastCoreClrStopInfo = st.lastCoreClrStopInfo ∧
    (onDidTerminateDebugSession st).lastStoppedThreadId = st.lastStoppedThreadId ∧
    (onDidTerminateDebugSession st).autoDumpInProgress = st.autoDumpInProgress :=
  ⟨rfl, rfl, rfl, rfl, rfl⟩

/-- A request sent to the debug adapter via `debugSession.customRequest`. -/
inductive DapRequest
  | stackTrace (threadId : Nat)
  | threads
  | evaluate (frameId : Nat)
  | next (threadId : Nat)
  | stepIn (threadId : Nat)
deriving DecidableEq

/-- Result of one run of the step-coordinator tail of
`maybeTriggerAutoDebugDump`: the new orchestrator state, the adapter requests
issued directly by that tail, and whether the capture command
(`to-debug-dump-cs`) was executed. -/
structure StepCoordinatorResult where
  state : OrchestratorState
  requests : List DapRequest
  capturedViaDumpCommand : Bool
deriving DecidableEq

/-- The capture tail of `maybeTriggerAutoDebugDump` (lines 799-815): if a
capture is already in progress the stop is ignored; otherwise the in-progress
guard is set, the `to-debug-dump-cs` command is executed, and in the `finally`
block the guard is released and the pending slot is cleared when the context
came from a pending request.  The returned state is the state after the
`finally` block. -/
def captureTail (st : OrchestratorState) (selectionContext : AutoDumpSelectionContext) :
    StepCoordinatorResult :=
  if st.autoDumpInProgress then
    { state := st, requests := [], capturedViaDumpCommand := false }
  else
    { state :=
        { st with
          autoDumpInProgress := false
          pendingAutoDumpRequest :=
            if selectionContext.fromPendingRequest then none else st.pendingAutoDumpRequest }
      requests := []
      capturedViaDumpCommand := true }

/-- The step-coordinator tail of `maybeTriggerAutoDebugDump` (lines 781-815),
taking the already-resolved selection context: a `return`-kind context is
never stepped over (the empty then-branch falls through to the capture tail);
otherwise, if the context requires a step over before dumping and a thread id
is available, a pending request for the same context with
`requiresStepOverBeforeDump = false` is persisted, a single `next`
(step-over) request is issued on the halted thread, and the handler returns
without capturing; without a thread id it returns without any action; and a
context that does not require a step proceeds to the capture tail. -/
def stepCoordinator (st : OrchestratorState) (selectionContext : AutoDumpSelectionContext)
    (documentUri : List Char) (sessionId : Nat) (threadId : Option Nat) (now : Nat) :
    StepCoordinatorResult :=
  if selectionContext.expressionType = ExpressionType.returnExpr then
    captureTail st selectionContext
  else if selectionContext.requiresStepOverBeforeDump then
    match threadId with
    | some tid =>
      { state :=
          persistPendingRequestFromContext st documentUri selectionContext (some sessionId)
            false now
        requests := [DapRequest.next tid]
        capturedViaDumpCommand := false }
    | none => { state := st, requests := [], capturedViaDumpCommand := false }
  else
    captureTail st selectionContext

/-- C1: per authorized stop handled by the automatic pipeline, (1) a
`return`-kind context never causes a step-over request; (2) an
`assignment`-kind context whose needs-step flag is true and for which the
halted thread id is known causes the pending slot to be re-persisted for the
same context with needs-step `false`, exactly one `next` (step-over) request,
and no capture; (3) a capture is executed only when the context is
`return`-kind or its needs-step flag is false, so an assignment-kind capture
can complete only after the step-over cycle has cleared the flag. -/
theorem auto_capture_step_discipline (st : OrchestratorState)
    (ctx : AutoDumpSelectionContext) (u : List Char) (sid : Nat) (tid : Option Nat) (now : Nat) :
    (ctx.expressionType = ExpressionType.returnExpr →
      ∀ t, DapRequest.next t ∉ (stepCoordinator st ctx u sid tid now).requests) ∧
    (ctx.expressionType = ExpressionType.assignmentExpr →
      ctx.requiresStepOverBeforeDump = true →
      ∀ t, tid = some t →
        (stepCoordinator st ctx u sid tid now).state.pendingAutoDumpRequest
            = some (buildPendingRequest u ctx (some sid) false now) ∧
        (stepCoordinator st ctx u sid tid now).requests = [DapRequest.next t] ∧
        (stepCoordinator st ctx u sid tid now).capturedViaDumpCommand = false) ∧
    ((stepCoordinator st ctx u sid tid now).capturedViaDumpCommand = true →
      ctx.expressionType = ExpressionType.returnExpr ∨
        ctx.requiresStepOverBeforeDump = false) := by
  refine ⟨?_, ?_, ?_⟩
  · intro hret t
    have h1 : stepCoordinator st ctx u sid tid now = captureTail st ctx := by
      simp [stepCoordinator, hret]
    rw [h1]
    unfold captureTail
    by_cases hp : st.autoDumpInProgress <;> simp [hp]
  · intro hasn hstep t htid
    subst htid
    have hne : ctx.expressionType ≠ ExpressionType.returnExpr := by
      rw [hasn]; intro h; cases h
    simp [stepCoordinator, hne, hstep, persistPendingRequestFromContext]
  · intro hcap
    by_cases hret : ctx.expressionType = ExpressionType.returnExpr
    · exact Or.inl hret
    · right
      by_cases hstep : ctx.requiresStepOverBeforeDump = true
      · exfalso
        cases tid with
        | some t => simp [stepCoordinator, hret, hstep] at hcap
        | none => simp [stepCoordinator, hret, hstep] at hcap
      · simpa using hstep

/-- A concrete orchestrator state used by the C1 witness. -/
def stateC1 : OrchestratorState :=
  { lastStoppedThreadId := some 7
    lastCoreClrStopInfo := none
    autoDumpInProgress := false
    autoDumpArmed := true
    pendingAutoDumpRequest := none }

/-- A concrete `return`-kind selection context used by the C1 witness. -/
def ctxReturnC1 : AutoDumpSelectionContext :=
  { rangeStart := (4, 11)
    rangeEnd := (4, 26)
    startLine := 4
    endLine := 4
    selectionText := "customer.Orders".data
    filePath := "/tmp/Program.cs".data
    fromPendingRequest := false
    requiresStepOverBeforeDump := false
    expressionType := ExpressionType.returnExpr }

/-- A concrete `assignment`-kind selection context with the needs-step flag
set, used by the C1 witness. -/
def ctxAssignC1 : AutoDumpSelectionContext :=
  { rangeStart := (9, 4)
    rangeEnd := (9, 10)
    startLine := 9
    endLine := 9
    selectionText := "result".data
    filePath := "/tmp/Program.cs".data
    fromPendingRequest := false
    requiresStepOverBeforeDump := true
    expressionType := ExpressionType.assignmentExpr }

/-- Concrete witness for C1: on a `return`-kind context the coordinator never
issues a step-over, and on an `assignment`-kind context with the needs-step
flag and thread 7 available it issues exactly one `next` request on thread 7,
re-persists the pending request with needs-step `false`, and does not
capture. -/
theorem auto_capture_step_discipline_witness :
    (∀ t, DapRequest.next t ∉
      (stepCoordinator stateC1 ctxReturnC1 "file:///tmp/Program.cs".data 1 (some 7) 0).requests) ∧
    (stepCoordinator stateC1 ctxAssignC1 "file:///tmp/Program.cs".data 1 (some 7) 0).state.pendingAutoDumpRequest
        = some (buildPendingRequest "file:///tmp/Program.cs".data ctxAssignC1 (some 1) false 0) ∧
    (stepCoordinator stateC1 ctxAssignC1 "file:///tmp/Program.cs".data 1 (some 7) 0).requests
        = [DapRequest.next 7] ∧
    (stepCoordinator stateC1 ctxAssignC1 "file:///tmp/Program.cs".data 1 (some 7) 0).capturedViaDumpCommand
        = false :=
  ⟨(auto_capture_step_discipline stateC1 ctxReturnC1 "file:///tmp/Program.cs".data 1
      (some 7) 0).1 rfl,
   (auto_capture_step_discipline stateC1 ctxAssignC1 "file:///tmp/Program.cs".data 1
      (some 7) 0).2.1 rfl rfl 7 rfl⟩

/-- JavaScript truthiness for an optional number: `undefined` and `0` are
falsy, every other number is truthy.  This is the test performed by the
`if (!frameId)` / `if (... && lastStoppedThreadId)` guards. -/
def jsTruthyNum : Option Nat → Bool
  | none => false
  | some n => n != 0

/-- The environment a capture attempt runs in: the debug UI's active stack
item (its `frameId` when present), the current session id, the recorded stop
info, the last stopped thread id, and the adapter's responses —
`stackTraceFrames t` is the ordered list of frame ids returned by a
`stackTrace` request for thread `t`, `threadIds` the ordered thread ids
returned by a `threads` request, and `evaluateResult` the `result` text
returned by the `evaluate` request. -/
structure EvalEnv where
  activeStackItemFrameId : Option Nat
  sessionId : Nat
  lastCoreClrStopInfo : Option CoreClrStopInfo
  lastStoppedThreadId : Option Nat
  stackTraceFrames : Nat → List Nat
  threadIds : List Nat
  evaluateResult : List Char

/-- Result of `resolveFrameId`: the final value of the `frameId` variable and
the adapter requests issued while resolving it. -/
structure ResolveFrameIdResult where
  frameId : Option Nat
  requests : List DapRequest

/-- Stage 2 of `resolveFrameId` (lines 367-369): when the frame id is still
falsy and `lastCoreClrStopInfo` carries a truthy frame id for the current
session, use that frame id. -/
def resolveFrameIdStage2 (env : EvalEnv) (frameId : Option Nat) : Option Nat :=
  if !jsTruthyNum frameId then
    match env.lastCoreClrStopInfo with
    | some info =>
      if jsTruthyNum info.frameId && (env.sessionId == info.sessionId) then info.frameId
      else frameId
    | none => frameId
  else frameId

/-- Stage 3 of `resolveFrameId` (lines 371-379): when the frame id is still
falsy and a (truthy) last stopped thread id is known, request a stack trace
for that thread and take the first frame's id when one is returned. -/
def resolveFrameIdStage3 (env : EvalEnv) (frameId : Option Nat) :
    Option Nat × List DapRequest :=
  if !jsTruthyNum frameId && jsTruthyNum env.lastStoppedThreadId then
    match env.lastStoppedThreadId with
    | some t =>
      (match env.stackTraceFrames t with
       | f :: _ => some f
       | [] => frameId,
       [DapRequest.stackTrace t])
    | none => (frameId, [])
  else (frameId, [])

/-- Stage 4 of `resolveFrameId` (lines 381-395): when the frame id is still
falsy, request the thread list and, when some thread is returned, a stack
trace for the first thread, taking the first frame's id when one is
returned. -/
def resolveFrameIdStage4 (env : EvalEnv) (frameId : Option Nat) :
    Option Nat × List DapRequest :=
  if !jsTruthyNum frameId then
    match env.threadIds with
    | t0 :: _ =>
      (match env.stackTraceFrames t0 with
       | f :: _ => some f
       | [] => frameId,
       [DapRequest.threads, DapRequest.stackTrace t0])
    | [] => (frameId, [DapRequest.threads])
  else (frameId, [])

/-- Model of `resolveFrameId` (lines 359-398).  The mutable `frameId`
variable is threaded through the four stages; each `if (!frameId ...)` guard
uses JavaScript truthiness, so a frame id of `0` does not stop the chain.
Stage 1 reads the debug UI's active stack item. -/
def resolveFrameId (env : EvalEnv) : ResolveFrameIdResult :=
  let frameId1 := env.activeStackItemFrameId
  let frameId2 := resolveFrameIdStage2 env frameId1
  let s3 := resolveFrameIdStage3 env frameId2
  let s4 := resolveFrameIdStage4 env s3.1
  { frameId := s4.1, requests := s3.2 ++ s4.2 }

/-- Fallback candidate (2): the frame id recorded in `StopInfo` when it
belongs to the current session. -/
def frameIdCandidate2 (env : EvalEnv) : Option Nat :=
  match env.lastCoreClrStopInfo with
  | some info => if env.sessionId = info.sessionId then info.frameId else none
  | none => none

/-- Fallback candidate (3): the first frame of a fresh stack trace of the
last known stopped thread (the guard uses JavaScript truthiness, so a thread
id of `0` yields no candidate). -/
def frameIdCandidate3 (env : EvalEnv) : Option Nat :=
  match env.lastStoppedThreadId with
  | some t => if t = 0 then none else (env.stackTraceFrames t).head?
  | none => none

/-- Fallback candidate (4): the first frame of a fresh stack trace of the
first thread reported by a `threads` request. -/
def frameIdCandidate4 (env : EvalEnv) : Option Nat :=
  match env.threadIds with
  | t0 :: _ => (env.stackTraceFrames t0).head?
  | [] => none

/-- The ordered fallback candidates of the frame-id resolution chain, one per
stage: (1) the debug UI's active stack item, (2) the frame id recorded in
`StopInfo` for the current session, (3) the first frame of a fresh stack
trace of the last known stopped thread, (4) the first frame of a fresh stack
trace of the first thread reported by a `threads` request. -/
def frameIdCandidates (env : EvalEnv) : List (Option Nat) :=
  [ env.activeStackItemFrameId, frameIdCandidate2 env,
    frameIdCandidate3 env, frameIdCandidate4 env ]

/-- The first usable (truthy) candidate of a fallback chain. -/
def firstUsable : List (Option Nat) → Option Nat
  | [] => none
  | c :: cs => if jsTruthyNum c then c else firstUsable cs

/-- The frame id a capture attempt actually proceeds with: the resolved frame
id if it survives the caller's `if (!frameId)` truthiness check, otherwise
none. -/
def usableFrameId (env : EvalEnv) : Option Nat :=
  if jsTruthyNum (resolveFrameId env).frameId then (resolveFrameId env).frameId else none

/-- Outcome of the evaluation phase of `to-debug-dump-cs`. -/
inductive DumpOutcome
  | errorNoFrame
  | errorNoContent
  | success (content : List Char)
deriving DecidableEq

/-- Result of the evaluation phase of `to-debug-dump-cs`: the outcome, the
adapter requests issued, and whether the artifact file was written and the
capture metadata recorded. -/
structure DumpEvalPhaseResult where
  outcome : DumpOutcome
  requests : List DapRequest
  wroteFile : Bool
  rememberedMetadata : Bool
deriving DecidableEq

/-- Model of the `to-debug-dump-cs` command from frame resolution onward
(lines 1205-1252): resolve a frame id; if it is falsy, fail with the
"Could not determine stack frame" error without issuing an `evaluate`
request; otherwise evaluate the serialization expression against the frame,
unwrap the result, and if the unwrapped content is empty or whitespace-only
fail with the "No JSON content captured" error without writing a file or
recording metadata; otherwise write the artifact and record its metadata. -/
def toDebugDumpEvalPhase (env : EvalEnv) : DumpEvalPhaseResult :=
  let r := resolveFrameId env
  if !jsTruthyNum r.frameId then
    { outcome := DumpOutcome.errorNoFrame
      requests := r.requests
      wroteFile := false
      rememberedMetadata := false }
  else
    let fid := r.frameId.getD 0
    let replOutput := env.evaluateResult
    let jsonContent := unwrapResult replOutput
    if jsonContent = [] ∨ trim jsonContent = [] then
      { outcome := DumpOutcome.errorNoContent
        requests := r.requests ++ [DapRequest.evaluate fid]
        wroteFile := false
        rememberedMetadata := false }
    else
      { outcome := DumpOutcome.success jsonContent
        requests := r.requests ++ [DapRequest.evaluate fid]
        wroteFile := true
        rememberedMetadata := true }

/-- A truthy frame id passes through stage 2 unchanged. -/
theorem stage2_of_truthy (env : EvalEnv) (f : Option Nat) (h : jsTruthyNum f = true) :
    resolveFrameIdStage2 env f = f := by
  simp [resolveFrameIdStage2, h]

/-- A truthy frame id passes through stage 3 unchanged, with no request. -/
theorem stage3_of_truthy (env : EvalEnv) (f : Option Nat) (h : jsTruthyNum f = true) :
    resolveFrameIdStage3 env f = (f, []) := by
  simp [resolveFrameIdStage3, h]

/-- A truthy frame id passes through stage 4 unchanged, with no request. -/
theorem stage4_of_truthy (env : EvalEnv) (f : Option Nat) (h : jsTruthyNum f = true) :
    resolveFrameIdStage4 env f = (f, []) := by
  simp [resolveFrameIdStage4, h]

/-- A `none` frame id is falsy. -/
theorem jsTruthyNum_none : jsTruthyNum none = false := rfl

/-- A nonzero frame id is truthy. -/
theorem jsTruthyNum_some_ne (n : Nat) (h : n ≠ 0) : jsTruthyNum (some n) = true := by
  simp [jsTruthyNum, h]

/-- `firstUsable` skips a falsy candidate. -/
theorem firstUsable_cons_false (c : Option Nat) (cs : List (Option Nat))
    (h : jsTruthyNum c = false) : firstUsable (c :: cs) = firstUsable cs := by
  simp [firstUsable, h]

/-- `firstUsable` returns a truthy candidate. -/
theorem firstUsable_cons_true (c : Option Nat) (cs : List (Option Nat))
    (h : jsTruthyNum c = true) : firstUsable (c :: cs) = c := by
  simp [firstUsable, h]

/-- `firstUsable` of a single candidate is its truthy filter. -/
theorem firstUsable_single (c : Option Nat) :
    firstUsable [c] = if jsTruthyNum c then c else none := by
  cases h : jsTruthyNum c <;> simp [firstUsable, h]

/-- Starting stage 4 from a falsy frame id, the usable (truthy) outcome is
exactly the truthy filter of fallback candidate (4). -/
theorem stage4_usable (env : EvalEnv) (f : Option Nat) (hf : jsTruthyNum f = false) :
    (if jsTruthyNum (resolveFrameIdStage4 env f).1 then (resolveFrameIdStage4 env f).1 else none)
      = firstUsable [frameIdCandidate4 env] := by
  rw [firstUsable_single]
  unfold resolveFrameIdStage4 frameIdCandidate4
  rw [hf]
  simp only [Bool.not_false, if_true]
  rcases hth : env.threadIds with _ | ⟨t0, ts⟩
  · simp [hf, jsTruthyNum_none]
  · rcases henv : env.stackTraceFrames t0 with _ | ⟨g, gs⟩
    · simp [hf, jsTruthyNum_none, henv]
    · simp [henv]

/-- Starting stages 3 and 4 from a falsy frame id, the usable (truthy)
outcome is the first truthy candidate among fallback candidates (3) and
(4). -/
theorem stage34_usable (env : EvalEnv) (f : Option Nat) (hf : jsTruthyNum f = false) :
    (if jsTruthyNum (resolveFrameIdStage4 env (resolveFrameIdStage3 env f).1).1
      then (resolveFrameIdStage4 env (resolveFrameIdStage3 env f).1).1 else none)
      = firstUsable [frameIdCandidate3 env, frameIdCandidate4 env] := by
  rcases hlt : env.lastStoppedThreadId with _ | t
  · have hs3 : resolveFrameIdStage3 env f = (f, []) := by
      unfold resolveFrameIdStage3
      rw [hlt]
      simp [jsTruthyNum_none]
    rw [hs3]
    rw [firstUsable_cons_false _ _ (by simp [frameIdCandidate3, hlt, jsTruthyNum_none])]
    exact stage4_usable env f hf
  · by_cases ht : t = 0
    · subst ht
      have hs3 : resolveFrameIdStage3 env f = (f, []) := by
        unfold resolveFrameIdStage3
        rw [hlt]
        simp [jsTruthyNum]
      rw [hs3]
      rw [firstUsable_cons_false _ _ (by simp [frameIdCandidate3, hlt, jsTruthyNum])]
      exact stage4_usable env f hf
    · have hc3 : frameIdCandidate3 env = (env.stackTraceFrames t).head? := by
        simp [frameIdCandidate3, hlt, ht]
      rcases hfr : env.stackTraceFrames t with _ | ⟨g, gs⟩
      · have hs3 : resolveFrameIdStage3 env f = (f, [DapRequest.stackTrace t]) := by
          unfold resolveFrameIdStage3
          rw [hlt, hf]
          simp [jsTruthyNum_some_ne t ht, hfr]
        rw [hs3]
        rw [firstUsable_cons_false _ _ (by rw [hc3, hfr]; rfl)]
        exact stage4_usable env f hf
      · have hs3 : resolveFrameIdStage3 env f = (some g, [DapRequest.stackTrace t]) := by
          unfold resolveFrameIdStage3
          rw [hlt, hf]
          simp [jsTruthyNum_some_ne t ht, hfr]
        rw [hs3]
        by_cases hg : g = 0
        · subst hg
          rw [firstUsable_cons_false _ _ (by rw [hc3, hfr]; rfl)]
          exact stage4_usable env (some 0) rfl
        · have hgt : jsTruthyNum (some g) = true := jsTruthyNum_some_ne g hg
          rw [firstUsable_cons_true _ _ (by rw [hc3, hfr]; simpa [List.head?] using hgt)]
          rw [stage4_of_truthy env (some g) hgt]
          simp [hgt, hc3, hfr, List.head?]

/-- Stage 3 never issues an `evaluate` request. -/
theorem stage3_requests_no_evaluate (env : EvalEnv) (f : Option Nat) (fr : Nat) :
    DapRequest.evaluate fr ∉ (resolveFrameIdStage3 env f).2 := by
  unfold resolveFrameIdStage3
  split
  · rcases hlt : env.lastStoppedThreadId with _ | t <;> simp [hlt]
  · simp

/-- Stage 4 never issues an `evaluate` request. -/
theorem stage4_requests_no_evaluate (env : EvalEnv) (f : Option Nat) (fr : Nat) :
    DapRequest.evaluate fr ∉ (resolveFrameIdStage4 env f).2 := by
  unfold resolveFrameIdStage4
  split
  · rcases hth : env.threadIds with _ | ⟨t0, ts⟩ <;> simp [hth]
  · simp

/-- Frame-id resolution never issues an `evaluate` request. -/
theorem resolveFrameId_no_evaluate (env : EvalEnv) (fr : Nat) :
    DapRequest.evaluate fr ∉ (resolveFrameId env).requests := by
  have hreq : (resolveFrameId env).requests
      = (resolveFrameIdStage3 env
          (resolveFrameIdStage2 env env.activeStackItemFrameId)).2
        ++ (resolveFrameIdStage4 env
          (resolveFrameIdStage3 env
            (resolveFrameIdStage2 env env.activeStackItemFrameId)).1).2 := rfl
  rw [hreq]
  intro h
  rcases List.mem_append.mp h with h | h
  · exact stage3_requests_no_evaluate env _ fr h
  · exact stage4_requests_no_evaluate env _ fr h

/-- C8: the evaluator resolves a usable stack-frame id by trying, in this
exact order, (1) the debug UI's active stack item, (2) the frame id recorded
in `StopInfo` for the current session, (3) a fresh stack trace of the last
known stopped thread taking the first frame, (4) a fresh threads request
followed by a stack trace of the first thread returned — the frame id the
capture proceeds with is the first usable candidate of that chain; and when
all four stages fail, the capture attempt ends with the frame-resolution
error and no `evaluate` request is ever issued. -/
theorem frame_resolution_fallback_chain (env : EvalEnv) :
    usableFrameId env = firstUsable (frameIdCandidates env) ∧
    (jsTruthyNum (resolveFrameId env).frameId = false →
      (toDebugDumpEvalPhase env).outcome = DumpOutcome.errorNoFrame ∧
      ∀ f, DapRequest.evaluate f ∉ (toDebugDumpEvalPhase env).requests) := by
  constructor
  · have hfid : (resolveFrameId env).frameId
        = (resolveFrameIdStage4 env (resolveFrameIdStage3 env
            (resolveFrameIdStage2 env env.activeStackItemFrameId)).1).1 := rfl
    unfold usableFrameId
    rw [hfid]
    by_cases h1 : jsTruthyNum env.activeStackItemFrameId = true
    · rw [stage2_of_truthy env _ h1]
      rw [stage3_of_truthy env _ h1]
      have h41 : (resolveFrameIdStage4 env
          ((env.activeStackItemFrameId, ([] : List DapRequest))).1).1
          = env.activeStackItemFrameId := by
        rw [stage4_of_truthy env _ h1]
      rw [h41]
      unfold frameIdCandidates
      rw [firstUsable_cons_true _ _ h1]
      simp [h1]
    · have h1f : jsTruthyNum env.activeStackItemFrameId = false := by
        simpa using h1
      unfold frameIdCandidates
      rw [firstUsable_cons_false _ _ h1f]
      rcases hsi : env.lastCoreClrStopInfo with _ | info
      · have hs2 : resolveFrameIdStage2 env env.activeStackItemFrameId
            = env.activeStackItemFrameId := by
          unfold resolveFrameIdStage2
          rw [hsi, h1f]
          simp
        rw [hs2]
        rw [firstUsable_cons_false _ _ (by simp [frameIdCandidate2, hsi, jsTruthyNum_none])]
        exact stage34_usable env _ h1f
      · by_cases h2 : (jsTruthyNum info.frameId && (env.sessionId == info.sessionId)) = true
        · have hs2 : resolveFrameIdStage2 env env.activeStackItemFrameId = info.frameId := by
            unfold resolveFrameIdStage2
            rw [hsi, h1f]
            simp [h2]
          obtain ⟨h2a, h2b⟩ := Bool.and_eq_true_iff.mp h2
          rw [hs2]
          rw [stage3_of_truthy env _ h2a]
          have h42 : (resolveFrameIdStage4 env
              ((info.frameId, ([] : List DapRequest))).1).1 = info.frameId := by
            rw [stage4_of_truthy env _ h2a]
          rw [h42]
          have hsess : env.sessionId = info.sessionId := by simpa using h2b
          have hc2 : frameIdCandidate2 env = info.frameId := by
            simp [frameIdCandidate2, hsi, hsess]
          rw [firstUsable_cons_true _ _ (by rw [hc2]; exact h2a)]
          simp [h2a, hc2]
        · have h2f : (jsTruthyNum info.frameId && (env.sessionId == info.sessionId)) = false := by
            simpa using h2
          have hs2 : resolveFrameIdStage2 env env.activeStackItemFrameId
              = env.activeStackItemFrameId := by
            unfold resolveFrameIdStage2
            rw [hsi, h1f]
            simp [h2f]
          rw [hs2]
          have hc2f : jsTruthyNum (frameIdCandidate2 env) = false := by
            rcases Bool.and_eq_false_iff.mp h2f with ha | hb
            · by_cases hsess : env.sessionId = info.sessionId
              · simp [frameIdCandidate2, hsi, hsess, ha]
              · simp [frameIdCandidate2, hsi, hsess, jsTruthyNum_none]
            · have hne : env.sessionId ≠ info.sessionId := by
                intro hh
                rw [hh] at hb
                simp at hb
              simp [frameIdCandidate2, hsi, hne, jsTruthyNum_none]
          rw [firstUsable_cons_false _ _ hc2f]
          exact stage34_usable env _ h1f
  · intro hfalsy
    have hout : toDebugDumpEvalPhase env =
        { outcome := DumpOutcome.errorNoFrame
          requests := (resolveFrameId env).requests
          wroteFile := false
          rememberedMetadata := false } := by
      simp [toDebugDumpEvalPhase, hfalsy]
    rw [hout]
    exact ⟨rfl, fun f => resolveFrameId_no_evaluate env f⟩

/-- A concrete environment in which all four frame-resolution stages fail,
used by the C8 witness. -/
def envC8 : EvalEnv :=
  { activeStackItemFrameId := none
    sessionId := 1
    lastCoreClrStopInfo := none
    lastStoppedThreadId := none
    stackTraceFrames := fun _ => []
    threadIds := []
    evaluateResult := "\"ok\"".data }

/-- Concrete witness for C8: in an environment where every fallback stage
fails, the usable frame id is the first usable candidate of the chain (none),
the capture ends with the frame-resolution error, and no `evaluate` request
is issued. -/
theorem frame_resolution_fallback_chain_witness :
    usableFrameId envC8 = firstUsable (frameIdCandidates envC8) ∧
    (toDebugDumpEvalPhase envC8).outcome = DumpOutcome.errorNoFrame ∧
    ∀ f, DapRequest.evaluate f ∉ (toDebugDumpEvalPhase envC8).requests :=
  ⟨(frame_resolution_fallback_chain envC8).1,
   ((frame_resolution_fallback_chain envC8).2 rfl).1,
   ((frame_resolution_fallback_chain envC8).2 rfl).2⟩

/-- C9: whenever a frame id was resolved but the evaluation result is empty
or whitespace-only after quote stripping and unescaping, the capture attempt
fails with the "no content" error, no artifact file is written and no
metadata is recorded — it is never treated as a successful capture. -/
theorem empty_capture_is_failure (env : EvalEnv)
    (hframe : jsTruthyNum (resolveFrameId env).frameId = true)
    (hempty : trim (unwrapResult env.evaluateResult) = []) :
    (toDebugDumpEvalPhase env).outcome = DumpOutcome.errorNoContent ∧
    (toDebugDumpEvalPhase env).wroteFile = false ∧
    (toDebugDumpEvalPhase env).rememberedMetadata = false := by
  simp [toDebugDumpEvalPhase, hframe, hempty]

/-- A concrete environment whose evaluation result is whitespace-only, used
by the C9 witness. -/
def envC9 : EvalEnv :=
  { activeStackItemFrameId := some 12
    sessionId := 1
    lastCoreClrStopInfo := none
    lastStoppedThreadId := some 7
    stackTraceFrames := fun _ => [12]
    threadIds := [7]
    evaluateResult := "   ".data }

/-- Concrete witness for C9: with a resolvable frame and a whitespace-only
evaluation result, the capture fails with the "no content" error and writes
nothing. -/
theorem empty_capture_is_failure_witness :
    (toDebugDumpEvalPhase envC9).outcome = DumpOutcome.errorNoContent ∧
    (toDebugDumpEvalPhase envC9).wroteFile = false ∧
    (toDebugDumpEvalPhase envC9).rememberedMetadata = false :=
  empty_capture_is_failure envC9 rfl (by decide)

/-- A list of whitespace characters only. -/
def AllWs (l : List Char) : Prop := ∀ c ∈ l, isWsChar c = true

/-- The whitespace run taken by `takeWhile` is all whitespace. -/
theorem allWs_takeWhile (l : List Char) : AllWs (l.takeWhile isWsChar) :=
  fun _ h => List.mem_takeWhile_imp h

/-- Every string is its leading-whitespace run followed by its `trimStart`. -/
theorem trimStart_decomp (l : List Char) : l = l.takeWhile isWsChar ++ trimStart l :=
  (List.takeWhile_append_dropWhile isWsChar l).symm

/-- `trimStart` ignores a prepended all-whitespace run. -/
theorem trimStart_append_allWs (w s : List Char) (hw : AllWs w) :
    trimStart (w ++ s) = trimStart s := by
  induction w with
  | nil => rfl
  | cons c cs ih =>
    have hc : isWsChar c = true := hw c (by simp)
    have hcs : AllWs cs := fun d hd => hw d (by simp [hd])
    simp only [List.cons_append, trimStart, List.dropWhile_cons, hc, if_true]
    exact ih hcs

/-- `trimStart` keeps a string whose first character is not whitespace. -/
theorem trimStart_cons_not_ws (c : Char) (s : List Char) (hc : isWsChar c = false) :
    trimStart (c :: s) = c :: s := by
  simp [trimStart, List.dropWhile_cons, hc]

/-- `dropWhile` twice is `dropWhile` once. -/
theorem dropWhile_idem (p : Char → Bool) (l : List Char) :
    (l.dropWhile p).dropWhile p = l.dropWhile p := by
  induction l with
  | nil => rfl
  | cons c cs ih =>
    by_cases hc : p c = true
    · simp [List.dropWhile_cons, hc, ih]
    · have hc' : p c = false := by simpa using hc
      simp [List.dropWhile_cons, hc']

/-- `trimStart` is idempotent. -/
theorem trimStart_idem (s : List Char) : trimStart (trimStart s) = trimStart s :=
  dropWhile_idem isWsChar s

/-- The head of a nonempty `trimStart` is not whitespace. -/
theorem trimStart_cons_head (s : List Char) (c : Char) (cs : List Char)
    (h : trimStart s = c :: cs) : isWsChar c = false := by
  induction s with
  | nil => simp [trimStart] at h
  | cons a as ih =>
    by_cases ha : isWsChar a = true
    · rw [trimStart, List.dropWhile_cons, if_pos ha] at h
      exact ih h
    · have ha' : isWsChar a = false := by simpa using ha
      rw [trimStart, List.dropWhile_cons] at h
      rw [ha'] at h
      simp only [Bool.false_eq_true, if_false] at h
      rw [List.cons.injEq] at h
      rw [← h.1]
      exact ha'

/-- `dropWhile` distributes over an append whose left part is not dropped
entirely. -/
theorem dropWhile_append_left (p : Char → Bool) (u v : List Char)
    (h : u.dropWhile p ≠ []) : (u ++ v).dropWhile p = u.dropWhile p ++ v := by
  induction u with
  | nil => simp at h
  | cons a as ih =>
    by_cases ha : p a = true
    · simp only [List.dropWhile_cons, ha, if_true] at h
      simp only [List.cons_append, List.dropWhile_cons, ha, if_true]
      exact ih h
    · have ha' : p a = false := by simpa using ha
      simp [List.cons_append, List.dropWhile_cons, ha']

/-- Every string is its `trimEnd` followed by an all-whitespace run. -/
theorem trimEnd_decomp (s : List Char) : ∃ w, AllWs w ∧ s = trimEnd s ++ w := by
  refine ⟨(s.reverse.takeWhile isWsChar).reverse, ?_, ?_⟩
  · intro c hc
    exact allWs_takeWhile s.reverse c (List.mem_reverse.mp hc)
  · conv_lhs => rw [← List.reverse_reverse s, trimStart_decomp s.reverse]
    rw [List.reverse_append]
    rfl

/-- `trimEnd` ignores a prefix when the rest does not trim away entirely. -/
theorem trimEnd_append_left (a b : List Char) (h : trimEnd b ≠ []) :
    trimEnd (a ++ b) = a ++ trimEnd b := by
  have hb : b.reverse.dropWhile isWsChar ≠ [] := by
    intro hx
    exact h (by simp [trimEnd, hx])
  rw [trimEnd, List.reverse_append, dropWhile_append_left _ _ _ hb,
    List.reverse_append, List.reverse_reverse, trimEnd]

/-- `trimEnd` erases exactly the all-whitespace strings. -/
theorem trimEnd_eq_nil_iff (s : List Char) : trimEnd s = [] ↔ AllWs s := by
  rw [trimEnd, List.reverse_eq_nil_iff, List.dropWhile_eq_nil_iff]
  constructor
  · intro h c hc
    exact h c (List.mem_reverse.mpr hc)
  · intro h c hc
    exact h c (List.mem_reverse.mp hc)

/-- `trimEnd` is idempotent. -/
theorem trimEnd_idem (s : List Char) : trimEnd (trimEnd s) = trimEnd s := by
  rw [trimEnd, trimEnd, List.reverse_reverse, dropWhile_idem]

/-- A nonempty `trimEnd` exposes the head of the original string. -/
theorem trimEnd_head (s : List Char) (c : Char) (cs : List Char)
    (h : trimEnd s = c :: cs) : ∃ t, s = c :: t := by
  obtain ⟨w, _, hs⟩ := trimEnd_decomp s
  rw [h] at hs
  exact ⟨cs ++ w, by simpa using hs⟩

/-- The head of a nonempty `trim` is not whitespace. -/
theorem trim_cons_head (s : List Char) (c : Char) (cs : List Char)
    (h : trim s = c :: cs) : isWsChar c = false := by
  rw [trim] at h
  obtain ⟨t, ht⟩ := trimEnd_head _ _ _ h
  exact trimStart_cons_head s c t ht

/-- `trimStart` fixes a trimmed string. -/
theorem trimStart_trim (s : List Char) : trimStart (trim s) = trim s := by
  cases h : trim s with
  | nil => rfl
  | cons c cs => exact trimStart_cons_not_ws c cs (trim_cons_head s c cs h)

/-- `trimEnd` fixes a trimmed string. -/
theorem trimEnd_trim (s : List Char) : trimEnd (trim s) = trim s := by
  rw [trim, trimEnd_idem]

/-- `trim` is idempotent. -/
theorem trim_idem (s : List Char) : trim (trim s) = trim s := by
  rw [trim, trimStart_trim s]
  exact trimEnd_trim s

/-- `trim` after `trimEnd` is plain `trim`. -/
theorem trim_trimEnd (s : List Char) : trim (trimEnd s) = trim s := by
  cases hts : trimStart s with
  | nil =>
    have hall : AllWs s := by
      intro c hc
      exact List.dropWhile_eq_nil_iff.mp hts c hc
    have he : trimEnd s = [] := (trimEnd_eq_nil_iff s).mpr hall
    rw [he, trim, trim, hts]
    rfl
  | cons c cs =>
    have hc : isWsChar c = false := trimStart_cons_head s c cs hts
    have hw : AllWs (s.takeWhile isWsChar) := allWs_takeWhile s
    have hne : trimEnd (trimStart s) ≠ [] := by
      rw [hts]
      intro hnil
      have := (trimEnd_eq_nil_iff (c :: cs)).mp hnil c (by simp)
      rw [hc] at this
      cases this
    have hsplit : s = s.takeWhile isWsChar ++ trimStart s := trimStart_decomp s
    have he : trimEnd s = s.takeWhile isWsChar ++ trimEnd (trimStart s) := by
      conv_lhs => rw [hsplit]
      exact trimEnd_append_left _ _ hne
    rw [he, trim, trimStart_append_allWs _ _ hw]
    have hhead : ∃ t, trimEnd (trimStart s) = c :: t := by
      cases hx : trimEnd (trimStart s) with
      | nil => exact absurd hx hne
      | cons d ds =>
        rw [hts] at hx
        obtain ⟨t, ht⟩ := trimEnd_head _ _ _ hx
        rw [List.cons.injEq] at ht
        refine ⟨ds, ?_⟩
        rw [ht.1]
    obtain ⟨t, ht⟩ := hhead
    rw [ht, trimStart_cons_not_ws c t hc, ← ht, trimEnd_idem, trim]

/-- The characters of the `return` keyword. -/
def returnKw : List Char := "return".data

/-- The text of a single-line character range `(startChar, endChar)`:
`document.getText(range)` for a range lying on the given line. -/
def lineGetText (text : List Char) (range : Nat × Nat) : List Char :=
  (text.drop range.1).take (range.2 - range.1)

/-- The `while` loop of `tryGetReturnExpressionRange` (lines 474-476):
starting at index `i`, advance past whitespace characters; the final index is
`i` plus the length of the whitespace run at `i`. -/
def advanceWhileWs (text : List Char) (i : Nat) : Nat :=
  i + ((text.drop i).takeWhile isWsChar).length

/-- The `expressionWithoutSemicolon` computation of
`tryGetReturnExpressionRange` (lines 464-466): strip one trailing `;` and the
whitespace before it. -/
def stripTrailingSemicolon (t : List Char) : List Char :=
  if lastIs ';' t then trimEnd t.dropLast else t

/-- Model of `tryGetReturnExpressionRange` (lines 446-483) on the text of a
line (the caller's bounds check on the line number selects the line).  The
returned range is a character interval on that line. -/
def tryGetReturnExpressionRangeLine (text : List Char) : Option (Nat × Nat) :=
  let trimmedStart := trimStart text
  if returnKw.isPrefixOf trimmedStart then
    let afterReturn := trimmedStart.drop returnKw.length
    let trimmedExpression := trim afterReturn
    if trimmedExpression = [] ∨ trimmedExpression = [';'] then none
    else
      let expressionWithoutSemicolon := stripTrailingSemicolon trimmedExpression
      if expressionWithoutSemicolon = [] then none
      else
        let leadingWhitespace := text.length - trimmedStart.length
        let exprStartChar := advanceWhileWs text (leadingWhitespace + returnKw.length)
        some (exprStartChar, exprStartChar + expressionWithoutSemicolon.length)
  else none

/-- JavaScript `text.indexOf(c)`: position of the first occurrence. -/
def jsIndexOf (c : Char) : List Char → Option Nat
  | [] => none
  | d :: ds => if d = c then some 0 else (jsIndexOf c ds).map (· + 1)

/-- Model of `containsSimpleAssignmentOperator` (lines 271-289).  Only the
first `=` of the text is examined: it must not be followed by `=` or `>` and
not be preceded by `<`, `>`, `!` or `=` (a preceding character is read with
JavaScript `text[eqIndex - 1]`, which is `undefined` when the `=` is the
first character). -/
def containsSimpleAssignmentOperator (text : List Char) : Bool :=
  match jsIndexOf '=' text with
  | none => false
  | some eqIndex =>
    let prevChar : Option Char := if eqIndex = 0 then none else text[eqIndex - 1]?
    let nextChar : Option Char := text[eqIndex + 1]?
    if nextChar = some '=' ∨ nextChar = some '>' then false
    else if prevChar = some '<' ∨ prevChar = some '>' ∨ prevChar = some '!'
        ∨ prevChar = some '=' then false
    else true

/-- JavaScript `trimmedLeft.split(/\s+/)` on a trimmed string: the
whitespace-delimited tokens, read with an accumulator holding the current
token's characters in reverse. -/
def splitWsAux : List Char → List Char → List (List Char)
  | [], cur => if cur = [] then [] else [cur.reverse]
  | c :: cs, cur =>
    if isWsChar c then
      if cur = [] then splitWsAux cs []
      else cur.reverse :: splitWsAux cs []
    else splitWsAux cs (c :: cur)

/-- The whitespace-delimited tokens of a string. -/
def splitWs (s : List Char) : List (List Char) := splitWsAux s []

/-- The pattern occurs in `l` at position `i`. -/
def occursAt (l pat : List Char) (i : Nat) : Bool :=
  pat.isPrefixOf (l.drop i)

/-- JavaScript `l.lastIndexOf(pat)`: the greatest position at which the
pattern occurs, if any. -/
def lastIndexOfSub (l pat : List Char) : Option Nat :=
  ((List.range (l.length + 1)).filter (fun i => occursAt l pat i)).getLast?

/-- Model of `tryGetAssignmentTargetRange` (lines 485-528) on the text of a
line: take the first `=` (requiring a positive index, matching
`eqIndex <= 0`), check its neighbours, and return the range of the last
occurrence of the right-most whitespace-delimited token of the left-hand
segment. -/
def tryGetAssignmentTargetRange (text : List Char) : Option (Nat × Nat) :=
  match jsIndexOf '=' text with
  | none => none
  | some eqIndex =>
    if eqIndex = 0 then none
    else
      let prevChar : Option Char := text[eqIndex - 1]?
      let nextChar : Option Char := text[eqIndex + 1]?
      if nextChar = some '=' ∨ nextChar = some '>' then none
      else if prevChar = some '<' ∨ prevChar = some '>' ∨ prevChar = some '!' then none
      else
        let leftSegment := text.take eqIndex
        let trimmedLeft := trim leftSegment
        if trimmedLeft = [] then none
        else
          let parts := splitWs trimmedLeft
          let candidate := parts.getLastD []
          if candidate = [] then none
          else
            match lastIndexOfSub leftSegment candidate with
            | none => none
            | some candidateIndex =>
              some (candidateIndex, candidateIndex + candidate.length)

/-- Result of `normalizeSelectionRange` for a single-line selection. -/
structure NormalizedSelection where
  range : Nat × Nat
  selectionText : List Char
  requiresStepOverBeforeDump : Bool
  expressionType : ExpressionType
deriving DecidableEq

/-- Model of `normalizeSelectionRange` (lines 175-222) for a selection lying
on the single line `line` (so `singleLineSelection` holds): if the lowercased
trimmed selection starts with `return` and the remainder after the keyword is
nonempty, the line's return-expression range (when found) becomes the
selection with kind `return` and no step required; otherwise, if the trimmed
selection contains a simple assignment operator, the line's
assignment-target range (when found) becomes the selection with kind
`assignment` and a step required; otherwise the selection is kept, trimmed,
with kind `other`. -/
def normalizeSelectionLine (line : List Char) (range : Nat × Nat)
    (selectionText : List Char) (requiresStepOverBeforeDump : Bool) : NormalizedSelection :=
  let trimmedForAnalysis := trim selectionText
  let lowerTrimmed := trimmedForAnalysis.map Char.toLower
  let unchanged : NormalizedSelection :=
    { range := range
      selectionText := trim selectionText
      requiresStepOverBeforeDump := requiresStepOverBeforeDump
      expressionType := ExpressionType.otherExpr }
  if returnKw.isPrefixOf lowerTrimmed then
    let remainder := trim (trimmedForAnalysis.drop returnKw.length)
    if remainder ≠ [] then
      match tryGetReturnExpressionRangeLine line with
      | some r =>
        { range := r
          selectionText := trim (lineGetText line r)
          requiresStepOverBeforeDump := false
          expressionType := ExpressionType.returnExpr }
      | none => unchanged
    else unchanged
  else if containsSimpleAssignmentOperator trimmedForAnalysis then
    match tryGetAssignmentTargetRange line with
    | some r =>
      { range := r
        selectionText := trim (lineGetText line r)
        requiresStepOverBeforeDump := true
        expressionType := ExpressionType.assignmentExpr }
    | none => unchanged
  else unchanged

/-- The expression inference engine applied to a full source line:
`normalizeSelectionRange` with the whole line as the (single-line) selection
and no step initially required, as in the explicit arming path. -/
def inferLine (line : List Char) : NormalizedSelection :=
  normalizeSelectionLine line (0, line.length) line false

/-- A list is a `isPrefixOf`-prefix of itself followed by anything. -/
theorem isPrefixOf_append_self (l t : List Char) : l.isPrefixOf (l ++ t) = true := by
  induction l with
  | nil => simp [List.isPrefixOf]
  | cons c cs ih => simp [List.isPrefixOf, ih]

/-- The stripped return expression is nonempty when the trimmed remainder is
nonempty and not a bare `;`. -/
theorem stripSemi_ne_nil (rest : List Char) (hne : trim rest ≠ [])
    (hsemi : trim rest ≠ [';']) : stripTrailingSemicolon (trim rest) ≠ [] := by
  unfold stripTrailingSemicolon
  by_cases hlast : lastIs ';' (trim rest) = true
  · rw [if_pos hlast]
    intro hnil
    have hall : AllWs (trim rest).dropLast := (trimEnd_eq_nil_iff _).mp hnil
    cases hT : trim rest with
    | nil => exact hne hT
    | cons c cs =>
      have hc : isWsChar c = false := trim_cons_head rest c cs hT
      cases hcs : cs with
      | nil =>
        rw [hT, hcs] at hlast
        have : c = ';' := by
          simpa [lastIs, headIs] using hlast
        rw [hT, hcs, this] at hsemi
        exact hsemi rfl
      | cons d ds =>
        have hmem : c ∈ (trim rest).dropLast := by
          rw [hT, hcs, List.dropLast_cons_of_ne_nil (by simp)]
          simp
        have := hall c hmem
        rw [hc] at this
        cases this
  · rw [if_neg hlast]
    exact hne

/-- The stripped return expression is a prefix of `trimStart rest`. -/
theorem stripSemi_prefix_trimStart (rest : List Char) :
    ∃ z, trimStart rest = stripTrailingSemicolon (trim rest) ++ z := by
  obtain ⟨w2, _, hw2⟩ := trimEnd_decomp (trimStart rest)
  have hw2' : trimStart rest = trim rest ++ w2 := hw2
  unfold stripTrailingSemicolon
  by_cases hlast : lastIs ';' (trim rest) = true
  · rw [if_pos hlast]
    by_cases hT : trim rest = []
    · refine ⟨w2, ?_⟩
      rw [hT] at hw2'
      rw [hT]
      simpa using hw2'
    · obtain ⟨w3, _, hw3⟩ := trimEnd_decomp ((trim rest).dropLast)
      refine ⟨w3 ++ [(trim rest).getLast hT] ++ w2, ?_⟩
      have hTsplit : (trim rest).dropLast ++ [(trim rest).getLast hT] = trim rest :=
        List.dropLast_append_getLast hT
      calc trimStart rest = trim rest ++ w2 := hw2
        _ = ((trim rest).dropLast ++ [(trim rest).getLast hT]) ++ w2 := by rw [hTsplit]
        _ = ((trimEnd (trim rest).dropLast ++ w3) ++ [(trim rest).getLast hT]) ++ w2 := by
              rw [← hw3]
        _ = trimEnd (trim rest).dropLast ++ (w3 ++ [(trim rest).getLast hT] ++ w2) := by
              simp [List.append_assoc]
  · rw [if_neg hlast]
    exact ⟨w2, hw2⟩

/-- The stripped return expression is already trimmed. -/
theorem stripSemi_trimmed (rest : List Char) (hne : trim rest ≠ [])
    (hsemi : trim rest ≠ [';']) :
    trim (stripTrailingSemicolon (trim rest)) = stripTrailingSemicolon (trim rest) := by
  have hEne := stripSemi_ne_nil rest hne hsemi
  obtain ⟨z, hz⟩ := stripSemi_prefix_trimStart rest
  cases hE : stripTrailingSemicolon (trim rest) with
  | nil => exact absurd hE hEne
  | cons c cs =>
    have hhead : isWsChar c = false := by
      apply trimStart_cons_head rest c (cs ++ z)
      rw [hz, hE]
      simp
    have hstart : trimStart (c :: cs) = c :: cs := trimStart_cons_not_ws c cs hhead
    have hend : trimEnd (c :: cs) = c :: cs := by
      rw [← hE]
      unfold stripTrailingSemicolon
      by_cases hlast : lastIs ';' (trim rest) = true
      · rw [if_pos hlast, trimEnd_idem]
      · rw [if_neg hlast]
        exact trimEnd_trim rest
    rw [trim, hstart, hend]

/-- Full characterisation of `tryGetReturnExpressionRange` on a line whose
`trimStart` begins with the six characters `return`: the function succeeds,
and the text of the returned range is the remainder after the keyword with
one trailing `;` and surrounding whitespace stripped. -/
theorem tryGetReturn_eq (line rest : List Char)
    (hts : trimStart line = returnKw ++ rest)
    (hne : trim rest ≠ []) (hsemi : trim rest ≠ [';']) :
    ∃ r, tryGetReturnExpressionRangeLine line = some r ∧
      lineGetText line r = stripTrailingSemicolon (trim rest) := by
  have hEne := stripSemi_ne_nil rest hne hsemi
  have hpre : returnKw.isPrefixOf (trimStart line) = true := by
    rw [hts]; exact isPrefixOf_append_self _ _
  have hdropKw : (trimStart line).drop returnKw.length = rest := by
    rw [hts]; exact List.drop_left _ _
  have hfun : tryGetReturnExpressionRangeLine line
      = some (advanceWhileWs line (line.length - (trimStart line).length + returnKw.length),
          advanceWhileWs line (line.length - (trimStart line).length + returnKw.length)
            + (stripTrailingSemicolon (trim rest)).length) := by
    simp only [tryGetReturnExpressionRangeLine, hpre, hdropKw, if_true]
    simp [hne, hsemi, hEne]
  have hlineW := trimStart_decomp line
  generalize hW : line.takeWhile isWsChar = w at hlineW
  have hlen : line.length - (trimStart line).length = w.length := by
    have h1 : line.length = w.length + (trimStart line).length := by
      conv_lhs => rw [hlineW]
      simp [List.length_append]
    omega
  have hline2 : line = ((w ++ returnKw) ++ rest.takeWhile isWsChar) ++ trimStart rest := by
    calc line = w ++ trimStart line := hlineW
      _ = w ++ (returnKw ++ rest) := by rw [hts]
      _ = w ++ (returnKw ++ (rest.takeWhile isWsChar ++ trimStart rest)) := by
          conv_lhs => rw [trimStart_decomp rest]
      _ = ((w ++ returnKw) ++ rest.takeWhile isWsChar) ++ trimStart rest := by
          simp [List.append_assoc]
  have hadv : advanceWhileWs line (w.length + returnKw.length)
      = w.length + returnKw.length + (rest.takeWhile isWsChar).length := by
    unfold advanceWhileWs
    have hdrop6 : line.drop (w.length + returnKw.length) = rest := by
      have hl : (w ++ returnKw).length = w.length + returnKw.length := by
        simp [List.length_append]
      rw [← hl]
      conv_lhs => rw [hlineW, hts, ← List.append_assoc]
      exact List.drop_left _ _
    rw [hdrop6]
  have hdropS : line.drop (w.length + returnKw.length + (rest.takeWhile isWsChar).length)
      = trimStart rest := by
    have hl2 : ((w ++ returnKw) ++ rest.takeWhile isWsChar).length
        = w.length + returnKw.length + (rest.takeWhile isWsChar).length := by
      simp only [List.length_append]
    rw [← hl2]
    conv_lhs => rw [hline2]
    exact List.drop_left _ _
  obtain ⟨z, hz⟩ := stripSemi_prefix_trimStart rest
  refine ⟨_, hfun, ?_⟩
  rw [lineGetText, hlen, hadv]
  simp only [Nat.add_sub_cancel_left, Nat.add_sub_cancel]
  rw [hdropS, hz]
  exact List.take_left _ _

/-- C2 (amended): for every source line whose `trimStart` begins with the six
characters `return` (no word-boundary check) followed by a remainder whose
trim is nonempty and not a bare `;`, full-line expression inference yields
kind `return`, a needs-step flag of `false`, and expression text equal to the
remainder with a trailing `;` and surrounding whitespace stripped. -/
theorem return_inference (line rest : List Char)
    (hts : trimStart line = returnKw ++ rest)
    (hne : trim rest ≠ []) (hsemi : trim rest ≠ [';']) :
    (inferLine line).expressionType = ExpressionType.returnExpr ∧
    (inferLine line).requiresStepOverBeforeDump = false ∧
    (inferLine line).selectionText = stripTrailingSemicolon (trim rest) := by
  obtain ⟨r, hr, hrText⟩ := tryGetReturn_eq line rest hts hne hsemi
  have hTEne : trimEnd rest ≠ [] := by
    intro h0
    have hall : AllWs rest := (trimEnd_eq_nil_iff rest).mp h0
    have hallTS : AllWs (trimStart rest) := fun c hc =>
      hall c ((List.dropWhile_suffix isWsChar).sublist.subset hc)
    exact hne ((trimEnd_eq_nil_iff _).mpr hallTS)
  have htrim : trim line = returnKw ++ trimEnd rest := by
    rw [trim, hts]
    exact trimEnd_append_left _ _ hTEne
  have hmapkw : returnKw.map Char.toLower = returnKw := by decide
  have hpre2 : returnKw.isPrefixOf ((trim line).map Char.toLower) = true := by
    rw [htrim, List.map_append, hmapkw]
    exact isPrefixOf_append_self _ _
  have hrem : trim ((trim line).drop returnKw.length) = trim rest := by
    rw [htrim, List.drop_left]
    exact trim_trimEnd rest
  have hEtrim := stripSemi_trimmed rest hne hsemi
  unfold inferLine normalizeSelectionLine
  simp [hpre2, hrem, hne, hr, hrText, hEtrim]

/-- Counterexample to C2 as stated: the claim asserts the return rule does
not apply to a line whose first token merely has `return` as an identifier
prefix, such as `returnValue = x;`.  In the code the rule keys on the raw
six-character prefix `return` of the trimmed line, so inference classifies
this line as a `return` expression with text `Value = x`. -/
theorem return_rule_no_word_boundary_counterexample :
    (inferLine "returnValue = x;".data).expressionType = ExpressionType.returnExpr ∧
    (inferLine "returnValue = x;".data).selectionText = "Value = x".data ∧
    (inferLine "returnValue = x;".data).requiresStepOverBeforeDump = false := by
  refine ⟨?_, ?_, ?_⟩ <;> decide

/-- Concrete witness for (amended) C2: `    return customer.Orders;` is
classified as a `return` expression whose text is `customer.Orders`, with no
step required. -/
theorem return_inference_witness :
    (inferLine "    return customer.Orders;".data).expressionType
        = ExpressionType.returnExpr ∧
    (inferLine "    return customer.Orders;".data).requiresStepOverBeforeDump = false ∧
    (inferLine "    return customer.Orders;".data).selectionText
        = "customer.Orders".data :=
  ⟨(return_inference "    return customer.Orders;".data " customer.Orders;".data
      (by decide) (by decide) (by decide)).1,
   (return_inference "    return customer.Orders;".data " customer.Orders;".data
      (by decide) (by decide) (by decide)).2.1,
   ((return_inference "    return customer.Orders;".data " customer.Orders;".data
      (by decide) (by decide) (by decide)).2.2).trans (by decide)⟩

/-- `isPrefixOf` characterised by an append decomposition. -/
theorem isPrefixOf_iff_exists (l s : List Char) :
    l.isPrefixOf s = true ↔ ∃ t, s = l ++ t := by
  induction l generalizing s with
  | nil => simp [List.isPrefixOf]
  | cons c cs ih =>
    cases s with
    | nil =>
      simp [List.isPrefixOf]
    | cons d ds =>
      simp only [List.isPrefixOf, Bool.and_eq_true, beq_iff_eq]
      constructor
      · rintro ⟨rfl, h⟩
        obtain ⟨t, rfl⟩ := (ih ds).mp h
        exact ⟨t, rfl⟩
      · rintro ⟨t, ht⟩
        rw [List.cons_append, List.cons.injEq] at ht
        exact ⟨ht.1.symm, (ih ds).mpr ⟨t, ht.2⟩⟩

/-- A found index of `jsIndexOf` is in range. -/
theorem jsIndexOf_lt_length (c : Char) (l : List Char) (i : Nat)
    (h : jsIndexOf c l = some i) : i < l.length := by
  induction l generalizing i with
  | nil => simp [jsIndexOf] at h
  | cons d ds ih =>
    rw [jsIndexOf] at h
    by_cases hd : d = c
    · rw [if_pos hd] at h
      injection h with h
      subst h
      simp
    · rw [if_neg hd] at h
      cases hprev : jsIndexOf c ds with
      | none => rw [hprev] at h; simp at h
      | some j =>
        rw [hprev] at h
        simp at h
        have := ih j hprev
        rw [List.length_cons]
        omega

/-- The accumulator variant of `splitWs` never returns the empty list when
the accumulator is nonempty. -/
theorem splitWsAux_ne_nil_of_cur (s : List Char) :
    ∀ cur : List Char, cur ≠ [] → splitWsAux s cur ≠ [] := by
  induction s with
  | nil =>
    intro cur h
    simp [splitWsAux, h]
  | cons c cs ih =>
    intro cur h
    by_cases hws : isWsChar c = true
    · simp [splitWsAux, hws, h]
    · have hws' : isWsChar c = false := by simpa using hws
      simp only [splitWsAux, hws', Bool.false_eq_true, if_false]
      exact ih (c :: cur) (by simp)

/-- Every token returned by the accumulator variant of `splitWs` is nonempty,
whitespace-free, and occurs inside the accumulated prefix followed by the
remaining input. -/
theorem splitWsAux_mem (s : List Char) :
    ∀ (cur : List Char), (∀ c ∈ cur, isWsChar c = false) →
    ∀ t ∈ splitWsAux s cur, t ≠ [] ∧ (∀ c ∈ t, isWsChar c = false) ∧
      ∃ u v, cur.reverse ++ s = u ++ (t ++ v) := by
  induction s with
  | nil =>
    intro cur hcur t ht
    by_cases h : cur = []
    · rw [splitWsAux, if_pos h] at ht
      simp at ht
    · rw [splitWsAux, if_neg h] at ht
      rw [List.mem_singleton] at ht
      subst ht
      refine ⟨by simpa using h, fun c hc => hcur c (List.mem_reverse.mp hc), [], [], by simp⟩
  | cons c cs ih =>
    intro cur hcur t ht
    by_cases hws : isWsChar c = true
    · rw [splitWsAux, if_pos hws] at ht
      by_cases h : cur = []
      · rw [if_pos h] at ht
        obtain ⟨h1, h2, u, v, huv⟩ := ih [] (by simp) t ht
        simp only [List.reverse_nil, List.nil_append] at huv
        subst h
        exact ⟨h1, h2, c :: u, v, by simp [huv]⟩
      · rw [if_neg h] at ht
        rcases List.mem_cons.mp ht with hteq | ht'
        · subst hteq
          exact ⟨by simpa using h, fun d hd => hcur d (List.mem_reverse.mp hd),
            [], c :: cs, by simp⟩
        · obtain ⟨h1, h2, u, v, huv⟩ := ih [] (by simp) t ht'
          simp only [List.reverse_nil, List.nil_append] at huv
          exact ⟨h1, h2, cur.reverse ++ (c :: u), v, by simp [huv]⟩
    · have hws' : isWsChar c = false := by simpa using hws
      rw [splitWsAux, if_neg (by simp [hws'])] at ht
      have hcur' : ∀ d ∈ (c :: cur), isWsChar d = false := by
        intro d hd
        rcases List.mem_cons.mp hd with rfl | hd'
        · exact hws'
        · exact hcur d hd'
      obtain ⟨h1, h2, u, v, huv⟩ := ih (c :: cur) hcur' t ht
      refine ⟨h1, h2, u, v, ?_⟩
      calc cur.reverse ++ (c :: cs) = (c :: cur).reverse ++ cs := by simp
        _ = u ++ (t ++ v) := huv

/-- The right-most whitespace-delimited token of a trimmed nonempty string is
nonempty, whitespace-free, and occurs in the string. -/
theorem splitWs_last_props (s : List Char) (c : Char) (cs : List Char)
    (hs : s = c :: cs) (hc : isWsChar c = false) :
    (splitWs s).getLastD [] ≠ [] ∧
    (∀ d ∈ (splitWs s).getLastD [], isWsChar d = false) ∧
    ∃ u v, s = u ++ ((splitWs s).getLastD [] ++ v) := by
  have hne : splitWs s ≠ [] := by
    rw [splitWs, hs, splitWsAux, if_neg (by simp [hc])]
    exact splitWsAux_ne_nil_of_cur cs [c] (by simp)
  have hmem : (splitWs s).getLastD [] ∈ splitWs s := by
    rw [List.getLastD_eq_getLast?, List.getLast?_eq_getLast _ hne]
    exact List.getLast_mem hne
  have := splitWsAux_mem s [] (by simp) _ hmem
  simpa using this

/-- If the pattern occurs somewhere, `lastIndexOfSub` finds an occurrence. -/
theorem lastIndexOfSub_of_occurs (l p : List Char) (i : Nat) (hi : i ≤ l.length)
    (hocc : occursAt l p i = true) :
    ∃ j, lastIndexOfSub l p = some j ∧ occursAt l p j = true := by
  have hmem : i ∈ (List.range (l.length + 1)).filter (fun k => occursAt l p k) := by
    rw [List.mem_filter]
    exact ⟨List.mem_range.mpr (by omega), hocc⟩
  have hne : (List.range (l.length + 1)).filter (fun k => occursAt l p k) ≠ [] :=
    List.ne_nil_of_mem hmem
  refine ⟨((List.range (l.length + 1)).filter fun k => occursAt l p k).getLast hne, ?_, ?_⟩
  · exact List.getLast?_eq_getLast _ hne
  · have hj := List.getLast_mem hne
    exact (List.mem_filter.mp hj).2

/-- The text of the range of an occurrence is the pattern itself. -/
theorem occursAt_getText (l p : List Char) (j : Nat) (hocc : occursAt l p j = true) :
    lineGetText l (j, j + p.length) = p := by
  rw [occursAt] at hocc
  obtain ⟨t, ht⟩ := (isPrefixOf_iff_exists p (l.drop j)).mp hocc
  rw [lineGetText]
  simp only [Nat.add_sub_cancel_left]
  rw [ht]
  exact List.take_left _ _

/-- A whitespace-free string is fixed by `trim`. -/
theorem trim_eq_self_of_no_ws (l : List Char) (h : ∀ c ∈ l, isWsChar c = false) :
    trim l = l := by
  have hstart : trimStart l = l := by
    cases l with
    | nil => rfl
    | cons c cs => exact trimStart_cons_not_ws c cs (h c (by simp))
  have hend : trimEnd l = l := by
    rw [trimEnd]
    cases hr : l.reverse with
    | nil => simp [hr, List.reverse_eq_nil_iff.mp hr]
    | cons c cs =>
      have hc : isWsChar c = false := by
        apply h
        rw [← List.mem_reverse, hr]
        simp
      rw [List.dropWhile_cons, hc]
      simp only [Bool.false_eq_true, if_false]
      rw [← hr, List.reverse_reverse]
  rw [trim, hstart, hend]

/-- The text on the full line of an occurrence found inside the left segment
`text.take m` is the pattern itself. -/
theorem occursAt_take_getText (text : List Char) (m : Nat) (p : List Char) (j : Nat)
    (hocc : occursAt (text.take m) p j = true) :
    lineGetText text (j, j + p.length) = p := by
  rw [occursAt] at hocc
  obtain ⟨t, ht⟩ := (isPrefixOf_iff_exists _ _).mp hocc
  rw [List.drop_take] at ht
  have hlen : p.length ≤ m - j := by
    have hl := congrArg List.length ht
    simp only [List.length_take, List.length_append] at hl
    omega
  rw [lineGetText]
  simp only [Nat.add_sub_cancel_left]
  have hkey : ((text.drop j).take (m - j)).take p.length = (text.drop j).take p.length := by
    rw [List.take_take]
    congr 1
    omega
  rw [← hkey, ht]
  exact List.take_left _ _

/-- Full characterisation of `tryGetAssignmentTargetRange` on a line whose
first `=` is at a positive index, passes the neighbour checks, and has a
non-blank left-hand segment: the function succeeds and the text of the
returned range is the right-most whitespace-delimited token of the left-hand
segment. -/
theorem tryGetAssign_eq (text : List Char) (eqIndex : Nat)
    (hfind : jsIndexOf '=' text = some eqIndex)
    (hpos : eqIndex ≠ 0)
    (hnext : ¬ ((text[eqIndex + 1]? : Option Char) = some '='
        ∨ (text[eqIndex + 1]? : Option Char) = some '>'))
    (hprev : ¬ ((text[eqIndex - 1]? : Option Char) = some '<'
        ∨ (text[eqIndex - 1]? : Option Char) = some '>'
        ∨ (text[eqIndex - 1]? : Option Char) = some '!'))
    (hleft : trim (text.take eqIndex) ≠ []) :
    ∃ r, tryGetAssignmentTargetRange text = some r ∧
      lineGetText text r = (splitWs (trim (text.take eqIndex))).getLastD [] := by
  obtain ⟨c, cs, hT⟩ : ∃ c cs, trim (text.take eqIndex) = c :: cs := by
    cases h : trim (text.take eqIndex) with
    | nil => exact absurd h hleft
    | cons c cs => exact ⟨c, cs, rfl⟩
  have hc : isWsChar c = false := trim_cons_head _ c cs hT
  obtain ⟨hcne, hcws, u, v, huv⟩ := splitWs_last_props (trim (text.take eqIndex)) c cs hT hc
  obtain ⟨w2, _, hw2⟩ := trimEnd_decomp (trimStart (text.take eqIndex))
  have hw2' : trimStart (text.take eqIndex) = trim (text.take eqIndex) ++ w2 := hw2
  have hL : text.take eqIndex
      = ((text.take eqIndex).takeWhile isWsChar ++ u)
        ++ ((splitWs (trim (text.take eqIndex))).getLastD [] ++ (v ++ w2)) := by
    calc text.take eqIndex
        = (text.take eqIndex).takeWhile isWsChar ++ trimStart (text.take eqIndex) :=
          trimStart_decomp _
      _ = (text.take eqIndex).takeWhile isWsChar ++ (trim (text.take eqIndex) ++ w2) := by
          rw [hw2']
      _ = (text.take eqIndex).takeWhile isWsChar
            ++ ((u ++ ((splitWs (trim (text.take eqIndex))).getLastD [] ++ v)) ++ w2) := by
          rw [← huv]
      _ = ((text.take eqIndex).takeWhile isWsChar ++ u)
            ++ ((splitWs (trim (text.take eqIndex))).getLastD [] ++ (v ++ w2)) := by
          simp [List.append_assoc]
  have hdropP : ∀ (P Q L : List Char), L = P ++ Q → L.drop P.length = Q := by
    intro P Q L h
    rw [h]
    exact List.drop_left _ _
  have hocc : occursAt (text.take eqIndex) ((splitWs (trim (text.take eqIndex))).getLastD [])
      (((text.take eqIndex).takeWhile isWsChar ++ u).length) = true := by
    rw [occursAt]
    apply (isPrefixOf_iff_exists _ _).mpr
    exact ⟨v ++ w2, hdropP _ _ _ hL⟩
  have hi : ((text.take eqIndex).takeWhile isWsChar ++ u).length
      ≤ (text.take eqIndex).length := by
    have hlen := congrArg List.length hL
    simp only [List.length_append] at hlen ⊢
    omega
  obtain ⟨j, hj, hjocc⟩ := lastIndexOfSub_of_occurs _ _ _ hi hocc
  refine ⟨(j, j + ((splitWs (trim (text.take eqIndex))).getLastD []).length), ?_, ?_⟩
  · unfold tryGetAssignmentTargetRange
    rw [hfind]
    simp only [hpos, if_false]
    rw [if_neg hnext, if_neg hprev]
    simp only [hleft, hcne]
    rw [hj]
    simp [hleft, hcne]
  · exact occursAt_take_getText text eqIndex _ j hjocc

/-- C3 (amended): for every source line that does not trigger the return rule
and whose FIRST `=` is a simple assignment operator (positive index, not
followed by `=` or `>`, not preceded by `<`, `>` or `!`) with a non-blank
left-hand segment, full-line expression inference yields kind `assignment`, a
needs-step flag of `true`, and expression text equal to the right-most
whitespace-delimited token of the left-hand segment of that first `=`.  Lines
whose first `=` belongs to a compound operator are not treated as
assignments, even if a simple `=` occurs later. -/
theorem assignment_inference (text : List Char) (eqIndex : Nat)
    (hnoret : returnKw.isPrefixOf ((trim text).map Char.toLower) = false)
    (hcontains : containsSimpleAssignmentOperator (trim text) = true)
    (hfind : jsIndexOf '=' text = some eqIndex)
    (hpos : eqIndex ≠ 0)
    (hnext : ¬ ((text[eqIndex + 1]? : Option Char) = some '='
        ∨ (text[eqIndex + 1]? : Option Char) = some '>'))
    (hprev : ¬ ((text[eqIndex - 1]? : Option Char) = some '<'
        ∨ (text[eqIndex - 1]? : Option Char) = some '>'
        ∨ (text[eqIndex - 1]? : Option Char) = some '!'))
    (hleft : trim (text.take eqIndex) ≠ []) :
    (inferLine text).expressionType = ExpressionType.assignmentExpr ∧
    (inferLine text).requiresStepOverBeforeDump = true ∧
    (inferLine text).selectionText = (splitWs (trim (text.take eqIndex))).getLastD [] := by
  obtain ⟨r, hr, hrText⟩ := tryGetAssign_eq text eqIndex hfind hpos hnext hprev hleft
  obtain ⟨c, cs, hT⟩ : ∃ c cs, trim (text.take eqIndex) = c :: cs := by
    cases h : trim (text.take eqIndex) with
    | nil => exact absurd h hleft
    | cons c cs => exact ⟨c, cs, rfl⟩
  have hc : isWsChar c = false := trim_cons_head _ c cs hT
  obtain ⟨_, hcws, _⟩ := splitWs_last_props (trim (text.take eqIndex)) c cs hT hc
  have hcandTrim : trim ((splitWs (trim (text.take eqIndex))).getLastD [])
      = (splitWs (trim (text.take eqIndex))).getLastD [] :=
    trim_eq_self_of_no_ws _ hcws
  unfold inferLine normalizeSelectionLine
  simp only [List.getLastD_eq_getLast?] at hrText hcandTrim
  simp [hnoret, hcontains, hr, hrText, hcandTrim]

/-- Counterexample to C3 as stated: the claim asserts the assignment rule
also fires when an earlier `=` on the line is part of a compound operator
such as `==`.  The code examines only the FIRST `=` of the line, so
`if (a == b) total = 1;` — which does contain a later simple `=` with target
`total` — is not classified as an assignment at all. -/
theorem assignment_first_eq_only_counterexample :
    (∃ i, ((("if (a == b) total = 1;".data)[i]? : Option Char) = some '='
      ∧ (("if (a == b) total = 1;".data)[i + 1]? : Option Char) ≠ some '='
      ∧ (("if (a == b) total = 1;".data)[i + 1]? : Option Char) ≠ some '>'
      ∧ (("if (a == b) total = 1;".data)[i - 1]? : Option Char) ≠ some '<'
      ∧ (("if (a == b) total = 1;".data)[i - 1]? : Option Char) ≠ some '>'
      ∧ (("if (a == b) total = 1;".data)[i - 1]? : Option Char) ≠ some '!'
      ∧ (("if (a == b) total = 1;".data)[i - 1]? : Option Char) ≠ some '=')) ∧
    containsSimpleAssignmentOperator (trim "if (a == b) total = 1;".data) = false ∧
    (inferLine "if (a == b) total = 1;".data).expressionType ≠ ExpressionType.assignmentExpr := by
  refine ⟨⟨18, ?_⟩, ?_, ?_⟩ <;> decide

/-- Concrete witness for (amended) C3: `var result = ComputeTotal();` is
classified as an assignment requiring a step, with expression text `result`
(the right-most token left of the `=`). -/
theorem assignment_inference_witness :
    (inferLine "var result = ComputeTotal();".data).expressionType
        = ExpressionType.assignmentExpr ∧
    (inferLine "var result = ComputeTotal();".data).requiresStepOverBeforeDump = true ∧
    (inferLine "var result = ComputeTotal();".data).selectionText = "result".data :=
  ⟨(assignment_inference "var result = ComputeTotal();".data 11 (by decide) (by decide)
      (by decide) (by decide) (by decide) (by decide) (by decide)).1,
   (assignment_inference "var result = ComputeTotal();".data 11 (by decide) (by decide)
      (by decide) (by decide) (by decide) (by decide) (by decide)).2.1,
   ((assignment_inference "var result = ComputeTotal();".data 11 (by decide) (by decide)
      (by decide) (by decide) (by decide) (by decide) (by decide)).2.2).trans (by decide)⟩

/-- A decimal digit character, as matched by the regex class `\d`. -/
def isDigitChar (c : Char) : Bool := '0' ≤ c && c ≤ '9'

/-- The decimal digit character for a value below ten. -/
def digitChar : Nat → Char
  | 0 => '0' | 1 => '1' | 2 => '2' | 3 => '3' | 4 => '4'
  | 5 => '5' | 6 => '6' | 7 => '7' | 8 => '8' | _ => '9'

/-- Decimal representation of a natural number (`value.toString()`), written
with explicit fuel so that it evaluates by kernel reduction; `natDigits`
always supplies enough fuel. -/
def natDigitsAux : Nat → Nat → List Char
  | 0, _ => []
  | fuel + 1, n =>
    if n < 10 then [digitChar n]
    else natDigitsAux fuel (n / 10) ++ [digitChar (n % 10)]

/-- Decimal representation of a natural number (`value.toString()`). -/
def natDigits (n : Nat) : List Char := natDigitsAux (n + 1) n

/-- JavaScript `s.padStart(len, c)`. -/
def padStart (s : List Char) (len : Nat) (c : Char) : List Char :=
  List.replicate (len - s.length) c ++ s

/-- Model of `formatNumberSegment` (lines 80-82):
`value.toString().padStart(length, '0')`. -/
def formatNumberSegment (value length : Nat) : List Char :=
  padStart (natDigits value) length '0'

/-- Model of `buildDumpFileName` (lines 84-93): the artifact file name built
from the sanitized label, the selection context's start line, and the clock
time `hours:minutes:seconds`. -/
def buildDumpFileName (label : List Char) (startLine hours minutes seconds : Nat) :
    List Char :=
  let lineSegment := formatNumberSegment (startLine + 1) 3
  let hh := formatNumberSegment hours 2
  let mm := formatNumberSegment minutes 2
  let ss := formatNumberSegment seconds 2
  let timeSegment := hh ++ "-".data ++ mm ++ "-".data ++ ss
  label ++ "-".data ++ lineSegment ++ "-".data ++ timeSegment ++ ".json".data

/-- The `fileName.replace(/\.json$/i, '')` pass: strip one case-insensitive
`.json` extension from the end. -/
def stripJsonExt (s : List Char) : List Char :=
  if 5 ≤ s.length ∧ (s.drop (s.length - 5)).map Char.toLower = ".json".data
  then s.take (s.length - 5) else s

/-- Whether a string matches the time tail `-\d{2}-\d{2}-\d{2}` exactly. -/
def checkTimeTail (s : List Char) : Bool :=
  match s with
  | '-' :: a :: b :: '-' :: c :: d :: '-' :: e :: f :: [] =>
    isDigitChar a && isDigitChar b && isDigitChar c && isDigitChar d
      && isDigitChar e && isDigitChar f
  | _ => false

/-- Whether a string matches the suffix pattern `-\d+-\d{2}-\d{2}-\d{2}`
exactly (the part of the file-name regex after the capture group).  The
greedy `\d+` consumes the whole leading digit run; since the next pattern
character is a literal `-`, no shorter digit run can match, so the check is
deterministic. -/
def dumpSuffixMatches (s : List Char) : Bool :=
  match s with
  | '-' :: rest =>
    (!(rest.takeWhile isDigitChar).isEmpty) && checkTimeTail (rest.dropWhile isDigitChar)
  | _ => false

/-- The capture group of `withoutExt.match(/^(.*)-\d+-\d{2}-\d{2}-\d{2}$/)`:
with a greedy `.*`, the group is the longest prefix whose complement matches
the suffix pattern; `none` when the regex does not match at all. -/
def matchDumpPattern (s : List Char) : Option (List Char) :=
  ((List.range (s.length + 1)).reverse).findSome?
    (fun k => if dumpSuffixMatches (s.drop k) then some (s.take k) else none)

/-- Model of `inferExpressionFromFileName` (lines 433-444): an empty name
yields nothing; otherwise the `.json` extension is stripped, and if the
file-name pattern matches with a nonempty capture group the group is
returned, else the whole extension-less name (or nothing when it is
empty). -/
def inferExpressionFromFileName (fileName : List Char) : Option (List Char) :=
  if fileName = [] then none
  else
    let withoutExt := stripJsonExt fileName
    match matchDumpPattern withoutExt with
    | some g =>
      if g ≠ [] then some g
      else if withoutExt = [] then none else some withoutExt
    | none => if withoutExt = [] then none else some withoutExt

/-- `digitChar` always produces a digit character. -/
theorem digitChar_isDigit (n : Nat) : isDigitChar (digitChar n) = true := by
  unfold digitChar
  split <;> decide

/-- A digit character is not a dash. -/
theorem digit_ne_dash (c : Char) (h : isDigitChar c = true) : ¬ (c = '-') := by
  intro hc
  subst hc
  exact absurd h (by decide)

/-- With enough fuel, the decimal representation is nonempty and consists of
digit characters. -/
theorem natDigitsAux_props : ∀ (fuel n : Nat), n < fuel →
    natDigitsAux fuel n ≠ [] ∧ ∀ c ∈ natDigitsAux fuel n, isDigitChar c = true := by
  intro fuel
  induction fuel with
  | zero => intro n h; omega
  | succ f ih =>
    intro n h
    rw [natDigitsAux]
    by_cases hn : n < 10
    · rw [if_pos hn]
      refine ⟨by simp, ?_⟩
      intro c hc
      rw [List.mem_singleton] at hc
      subst hc
      exact digitChar_isDigit n
    · rw [if_neg hn]
      have hdiv : n / 10 < n := Nat.div_lt_self (by omega) (by omega)
      have hrec := ih (n / 10) (by omega)
      refine ⟨by simp, ?_⟩
      intro c hc
      rw [List.mem_append] at hc
      rcases hc with hc | hc
      · exact hrec.2 c hc
      · rw [List.mem_singleton] at hc
        subst hc
        exact digitChar_isDigit _

/-- The decimal representation is nonempty and consists of digits. -/
theorem natDigits_props (n : Nat) :
    natDigits n ≠ [] ∧ ∀ c ∈ natDigits n, isDigitChar c = true :=
  natDigitsAux_props (n + 1) n (by omega)

/-- With positive fuel, a value below ten has a one-digit representation. -/
theorem natDigitsAux_small (fuel n : Nat) (hf : 0 < fuel) (hn : n < 10) :
    natDigitsAux fuel n = [digitChar n] := by
  cases fuel with
  | zero => omega
  | succ f => rw [natDigitsAux, if_pos hn]

/-- A clock component below 100 formats as exactly two digit characters. -/
theorem formatNumberSegment_two (n : Nat) (h : n < 100) :
    ∃ a b, formatNumberSegment n 2 = [a, b]
      ∧ isDigitChar a = true ∧ isDigitChar b = true := by
  by_cases hn : n < 10
  · refine ⟨'0', digitChar n, ?_, by decide, digitChar_isDigit n⟩
    rw [formatNumberSegment, natDigits, natDigitsAux_small (n + 1) n (by omega) hn]
    rfl
  · refine ⟨digitChar (n / 10), digitChar (n % 10), ?_, digitChar_isDigit _,
      digitChar_isDigit _⟩
    rw [formatNumberSegment, natDigits, natDigitsAux, if_neg hn,
      natDigitsAux_small n (n / 10) (by omega) (by omega)]
    rfl

/-- A list of digit characters has no dash. -/
theorem count_dash_digits (l : List Char) (h : ∀ c ∈ l, isDigitChar c = true) :
    List.count '-' l = 0 := by
  rw [List.count_eq_zero]
  intro hmem
  exact digit_ne_dash '-' (h '-' hmem) rfl

/-- A matching time tail `-dd-dd-dd` has exactly three dashes. -/
theorem checkTimeTail_count (t : List Char) (h : checkTimeTail t = true) :
    List.count '-' t = 3 := by
  unfold checkTimeTail at h
  split at h
  · rename_i a b c d e f
    simp only [Bool.and_eq_true] at h
    obtain ⟨⟨⟨⟨⟨ha, hb⟩, hc⟩, hd⟩, he⟩, hf⟩ := h
    simp [List.count_cons, beq_iff_eq, digit_ne_dash a ha, digit_ne_dash b hb,
      digit_ne_dash c hc, digit_ne_dash d hd, digit_ne_dash e he, digit_ne_dash f hf]
  · exact absurd h (by simp)

/-- A string matching the dump suffix pattern has at least four dashes. -/
theorem dumpSuffix_count (s : List Char) (h : dumpSuffixMatches s = true) :
    4 ≤ List.count '-' s := by
  unfold dumpSuffixMatches at h
  split at h
  · rename_i rest
    simp only [Bool.and_eq_true] at h
    have hc := checkTimeTail_count _ h.2
    have hsplit := List.takeWhile_append_dropWhile isDigitChar rest
    have hcount : List.count '-' rest
        = List.count '-' (rest.takeWhile isDigitChar)
          + List.count '-' (rest.dropWhile isDigitChar) := by
      conv_lhs => rw [← hsplit]
      exact List.count_append _ _ _
    simp [List.count_cons, hcount, hc]
  · exact absurd h (by simp)

/-- `takeWhile`/`dropWhile` on a digit run followed by a dash split exactly
at the dash. -/
theorem digits_run_split (D r : List Char) (hD : ∀ c ∈ D, isDigitChar c = true) :
    (D ++ '-' :: r).takeWhile isDigitChar = D
      ∧ (D ++ '-' :: r).dropWhile isDigitChar = '-' :: r := by
  induction D with
  | nil =>
    have hdash : isDigitChar '-' = false := by decide
    constructor
    · simp [List.takeWhile_cons, hdash]
    · simp [List.dropWhile_cons, hdash]
  | cons c cs ih =>
    have hc := hD c (by simp)
    have hrec := ih (fun d hd => hD d (by simp [hd]))
    constructor
    · simp [List.takeWhile_cons, hc, hrec.1]
    · simp [List.dropWhile_cons, hc, hrec.2]

/-- `findSome?` over a reversed range returns the value at the largest index
that yields something, here characterised by a known success index `k0` with
nothing above it. -/
theorem findSome_rev_range {α : Type} (f : Nat → Option α) :
    ∀ (n k0 : Nat), k0 ≤ n → (f k0).isSome = true →
    (∀ k, k0 < k → k ≤ n → f k = none) →
    ((List.range (n + 1)).reverse).findSome? f = f k0 := by
  intro n
  induction n with
  | zero =>
    intro k0 hk hsome _
    have hk0 : k0 = 0 := by omega
    subst hk0
    have : (List.range 1).reverse = [0] := by decide
    rw [this, List.findSome?_cons]
    cases hf : f 0 with
    | none => rw [hf] at hsome; simp at hsome
    | some b => rfl
  | succ m ih =>
    intro k0 hk hsome habove
    have hr : (List.range (m + 1 + 1)).reverse = (m + 1) :: (List.range (m + 1)).reverse := by
      rw [List.range_succ, List.reverse_append]
      rfl
    rw [hr, List.findSome?_cons]
    by_cases hk1 : k0 = m + 1
    · subst hk1
      cases hf : f (m + 1) with
      | none => rw [hf] at hsome; simp at hsome
      | some b => rfl
    · have hfm : f (m + 1) = none := habove (m + 1) (by omega) (by omega)
      rw [hfm]
      exact ih k0 (by omega) hsome (fun k h1 h2 => habove k h1 (by omega))

/-- Stripping the `.json` extension from any name that ends in it. -/
theorem stripJsonExt_append (s : List Char) :
    stripJsonExt (s ++ ('.' :: 'j' :: 's' :: 'o' :: 'n' :: [])) = s := by
  have hlen : (s ++ ('.' :: 'j' :: 's' :: 'o' :: 'n' :: [])).length = s.length + 5 := by
    simp [List.length_append]
  have hcond : 5 ≤ (s ++ ('.' :: 'j' :: 's' :: 'o' :: 'n' :: [])).length
      ∧ ((s ++ ('.' :: 'j' :: 's' :: 'o' :: 'n' :: [])).drop
          ((s ++ ('.' :: 'j' :: 's' :: 'o' :: 'n' :: [])).length - 5)).map Char.toLower
        = ".json".data := by
    constructor
    · rw [hlen]; omega
    · rw [hlen]
      simp only [Nat.add_sub_cancel]
      rw [List.drop_left]
      decide
  rw [stripJsonExt, if_pos hcond, hlen]
  simp only [Nat.add_sub_cancel]
  exact List.take_left _ _

/-- The file-name pattern match on a constructed dump name recovers exactly
the label: the tail `-<digits>-dd-dd-dd` matches at the end of the label, and
no longer capture is possible because every proper suffix of the tail has at
most three dashes while a match needs four. -/
theorem matchDumpPattern_round (label L rest2 : List Char)
    (hLne : L ≠ []) (hLdig : ∀ ch ∈ L, isDigitChar ch = true)
    (hcheck : checkTimeTail ('-' :: rest2) = true) :
    matchDumpPattern (label ++ ('-' :: (L ++ '-' :: rest2))) = some label := by
  obtain ⟨ht1, ht2⟩ := digits_run_split L rest2 hLdig
  have hLempty : L.isEmpty = false := by
    cases L with
    | nil => exact absurd rfl hLne
    | cons x xs => rfl
  have htailM : dumpSuffixMatches ('-' :: (L ++ '-' :: rest2)) = true := by
    have hred : dumpSuffixMatches ('-' :: (L ++ '-' :: rest2))
        = ((!((L ++ '-' :: rest2).takeWhile isDigitChar).isEmpty)
            && checkTimeTail ((L ++ '-' :: rest2).dropWhile isDigitChar)) := rfl
    rw [hred, ht1, ht2, hLempty, hcheck]
    rfl
  have hcount3 : List.count '-' (L ++ '-' :: rest2) = 3 := by
    rw [List.count_append, count_dash_digits L hLdig]
    have := checkTimeTail_count _ hcheck
    omega
  have hdropL : (label ++ ('-' :: (L ++ '-' :: rest2))).drop label.length
      = '-' :: (L ++ '-' :: rest2) := List.drop_left _ _
  have htakeL : (label ++ ('-' :: (L ++ '-' :: rest2))).take label.length
      = label := List.take_left _ _
  rw [matchDumpPattern]
  refine (findSome_rev_range _ _ label.length ?_ ?_ ?_).trans ?_
  · simp [List.length_append]
  · rw [hdropL, htailM]
    simp
  · intro k h1 h2
    have hdropk : (label ++ ('-' :: (L ++ '-' :: rest2))).drop k
        = ('-' :: (L ++ '-' :: rest2)).drop (k - label.length) := by
      have hj : k = label.length + (k - label.length) := by omega
      conv_lhs => rw [hj]
      exact List.drop_append _
    rw [hdropk]
    obtain ⟨j', hj'⟩ : ∃ j', k - label.length = j' + 1 :=
      ⟨k - label.length - 1, by omega⟩
    rw [hj']
    have hred2 : ('-' :: (L ++ '-' :: rest2)).drop (j' + 1)
        = (L ++ '-' :: rest2).drop j' := rfl
    rw [hred2]
    cases hdm : dumpSuffixMatches ((L ++ '-' :: rest2).drop j') with
    | false => simp [hdm]
    | true =>
      exfalso
      have h4 := dumpSuffix_count _ hdm
      have hle := (List.drop_sublist j' (L ++ '-' :: rest2)).count_le '-'
      rw [hcount3] at hle
      omega
  · rw [hdropL, htailM, htakeL]
    simp

/-- C10: artifact-name reconstruction inverts artifact-name construction.
For every nonempty sanitized label, every selection-context start line and
every clock time, applying `inferExpressionFromFileName` to the dump file
name built by `buildDumpFileName` (label, zero-padded 3-digit line segment,
`hh-mm-ss` time segment, `.json` extension) recovers exactly the label. -/
theorem dump_file_name_round_trip (label : List Char)
    (startLine hours minutes seconds : Nat) (hlabel : label ≠ [])
    (hhours : hours < 24) (hmin : minutes < 60) (hsec : seconds < 60) :
    inferExpressionFromFileName (buildDumpFileName label startLine hours minutes seconds)
      = some label := by
  obtain ⟨a, b, hab, hda, hdb⟩ := formatNumberSegment_two hours (by omega)
  obtain ⟨c, d, hcd, hdc, hdd⟩ := formatNumberSegment_two minutes (by omega)
  obtain ⟨e, f, hef, hde, hdf⟩ := formatNumberSegment_two seconds (by omega)
  have hndL := natDigits_props (startLine + 1)
  have hLne : formatNumberSegment (startLine + 1) 3 ≠ [] := by
    rw [formatNumberSegment, padStart]
    intro hnil
    rcases List.append_eq_nil.mp hnil with ⟨_, h2⟩
    exact hndL.1 h2
  have hLdig : ∀ ch ∈ formatNumberSegment (startLine + 1) 3, isDigitChar ch = true := by
    intro ch hch
    rw [formatNumberSegment, padStart, List.mem_append] at hch
    rcases hch with hch | hch
    · rw [(List.mem_replicate.mp hch).2]
      decide
    · exact hndL.2 ch hch
  have hcheck : checkTimeTail ('-' :: (a :: b :: '-' :: c :: d :: '-' :: e :: f :: []))
      = true := by
    have hred : checkTimeTail ('-' :: (a :: b :: '-' :: c :: d :: '-' :: e :: f :: []))
        = (isDigitChar a && isDigitChar b && isDigitChar c && isDigitChar d
            && isDigitChar e && isDigitChar f) := rfl
    rw [hred, hda, hdb, hdc, hdd, hde, hdf]
    rfl
  have hname : buildDumpFileName label startLine hours minutes seconds
      = (label ++ ('-' :: (formatNumberSegment (startLine + 1) 3
          ++ '-' :: (a :: b :: '-' :: c :: d :: '-' :: e :: f :: []))))
        ++ ('.' :: 'j' :: 's' :: 'o' :: 'n' :: []) := by
    simp only [buildDumpFileName]
    rw [hab, hcd, hef]
    simp [List.append_assoc]
  rw [hname]
  have hmatch := matchDumpPattern_round label (formatNumberSegment (startLine + 1) 3)
      (a :: b :: '-' :: c :: d :: '-' :: e :: f :: []) hLne hLdig hcheck
  have hstrip := stripJsonExt_append
      (label ++ ('-' :: (formatNumberSegment (startLine + 1) 3
          ++ '-' :: (a :: b :: '-' :: c :: d :: '-' :: e :: f :: []))))
  simp only [inferExpressionFromFileName]
  rw [if_neg (by simp), hstrip, hmatch]
  simp [hlabel]

/-- Concrete witness for C10: the name built for label `customer.Orders` at
line index 11 and time 14:03:59 round-trips back to the label. -/
theorem dump_file_name_round_trip_witness :
    inferExpressionFromFileName (buildDumpFileName "customer.Orders".data 11 14 3 59)
      = some "customer.Orders".data :=
  dump_file_name_round_trip "customer.Orders".data 11 14 3 59
    (by decide) (by decide) (by decide) (by decide)
